import Mathlib

/-
Verification of the trace Gantt-chart core of the dashboards-observability
fragment: span parsing (parseSpanHitData), hierarchical span reconstruction
(hitsToHierarchicalSpans), timeline layout (createPlotlyData) and the
viewport logic of SpanDetailPanel.  JavaScript numbers are modelled as
exact rationals; the mutable shared span-map nodes are modelled by their
keys together with the ordered list of children-push events.
-/

namespace TraceVis

/-- Trace analytics display mode (TraceAnalyticsMode). -/
inductive Mode
  | jaeger
  | data_prepper
  | custom_data_prepper
  deriving DecidableEq, Repr

/-- Reference kinds of a jaeger span reference. -/
inductive RefType
  | CHILD_OF
  | FOLLOWS_FROM
  deriving DecidableEq, Repr

/-- Jaeger span reference record. -/
structure SpanReference where
  refType : RefType
  spanID : String
  deriving DecidableEq, Repr

/-- Jaeger process object; its serviceName property may be absent. -/
structure SpanProcess where
  serviceName : Option String := none
  deriving DecidableEq, Repr

/-- Jaeger tag object; its error property may be absent. -/
structure SpanTag where
  error : Option Bool := none
  deriving DecidableEq, Repr

/-- Shallow model of the _source record of a raw search hit.  Fields the
code reads through lodash get are optional where missingness changes
control flow (a missing field reads as undefined).  Numeric fields
(startTime, duration, durationInNanos) are modelled as present rationals:
the documents the dashboard consumes always carry them, and a missing
numeric field would only turn derived numbers into NaN without changing
control flow.  For data-prepper modes, startTime stores the value that
parseIsoToNano extracts from the ISO timestamp string.  statusCode stands
for the flattened field the code reads under the literal key status.code. -/
structure Source where
  spanID : Option String := none
  spanId : Option String := none
  startTime : ℚ := 0
  duration : ℚ := 0
  durationInNanos : ℚ := 0
  process : Option SpanProcess := none
  serviceName : Option String := none
  operationName : Option String := none
  name : Option String := none
  tag : Option SpanTag := none
  statusCode : Option ℚ := none
  references : Option (List SpanReference) := none
  parentSpanId : Option String := none
  deriving DecidableEq, Repr

/-- Wrapper mirroring ParsedHit; the functions under study only read the
_source field. -/
structure ParsedHit where
  _source : Source
  deriving DecidableEq, Repr

instance {ε α : Type} [DecidableEq ε] [DecidableEq α] :
    DecidableEq (Except ε α)
  | .error e1, .error e2 =>
      if h : e1 = e2 then .isTrue (by rw [h])
      else .isFalse (fun hc => h (Except.error.inj hc))
  | .error _, .ok _ => .isFalse (fun hc => Except.noConfusion hc)
  | .ok _, .error _ => .isFalse (fun hc => Except.noConfusion hc)
  | .ok a1, .ok a2 =>
      if h : a1 = a2 then .isTrue (by rw [h])
      else .isFalse (fun hc => h (Except.ok.inj hc))

/-- Modelled from the spec: helper microToMilliSec of helper_functions.ts
(not under src), microseconds to milliseconds by division by 1000. -/
def microToMilliSec (q : ℚ) : ℚ := q / 1000

/-- Modelled from the spec: helper nanoToMilliSec of helper_functions.ts
(not under src), nanoseconds to milliseconds by division by 1000000. -/
def nanoToMilliSec (q : ℚ) : ℚ := q / 1000000

/-- Modelled from the spec: helper parseIsoToNano of helper_functions.ts
(not under src) parses an ISO timestamp string to nanoseconds; the model
stores that nanosecond value directly in Source.startTime for data-prepper
documents, so here the function is the identity. -/
def parseIsoToNano (q : ℚ) : ℚ := q

/-- lodash round with precision 2: shift by 100, round half toward
positive infinity (Math.round), shift back. -/
def jsRound2 (q : ℚ) : ℚ := ((⌊q * 100 + 1 / 2⌋ : ℤ) : ℚ) / 100

/-- Number.toFixed(2): two-decimal display string, ties rounded to the
larger value. -/
def toFixed2 (q : ℚ) : String :=
  let n : ℤ := ⌊q * 100 + 1 / 2⌋
  let a : ℕ := n.natAbs
  (if n < 0 then "-" else "") ++ toString (a / 100) ++ "." ++
    (if a % 100 < 10 then "0" else "") ++ toString (a % 100)

/-- Result record of parseSpanHitData. -/
structure SpanBasicData where
  spanId : Option String
  durationInMs : ℚ
  serviceName : Option String
  name : Option String
  error : String
  deriving DecidableEq, Repr

/-- Error marker string produced by parseSpanHitData. -/
def errorMarker : String := " ⚠ Error"

/-- Field projections of parseSpanHitData, total.  serviceName in jaeger
mode is read off the process object when present; the source dereferences
the process object without a guard, and parseSpanHitData below accounts
for the throw on a missing one. -/
def parseSpanHitDataTotal (span : ParsedHit) (mode : Mode) : SpanBasicData :=
  let src := span._source
  { spanId := if mode = .jaeger then src.spanID else src.spanId
    durationInMs :=
      if mode = .jaeger then jsRound2 (microToMilliSec src.duration)
      else jsRound2 (nanoToMilliSec src.durationInNanos)
    serviceName :=
      if mode = .jaeger then src.process.bind SpanProcess.serviceName
      else src.serviceName
    name := if mode = .jaeger then src.operationName else src.name
    error :=
      if mode = .jaeger then
        (if src.tag.bind SpanTag.error = some true then errorMarker else "")
      else (if src.statusCode = some 2 then errorMarker else "") }

/-- parseSpanHitData: in jaeger mode the serviceName line dereferences the
result of get on the process path without optional chaining, so it throws
a TypeError when the process field is missing; every other missing field
only yields undefined or an empty string. -/
def parseSpanHitData (span : ParsedHit) (mode : Mode) :
    Except Unit SpanBasicData :=
  if mode = .jaeger ∧ span._source.process = none then .error ()
  else .ok (parseSpanHitDataTotal span mode)

/-- getStartTimeInNanos: jaeger start times are microseconds scaled by
1000; data-prepper start times go through parseIsoToNano. -/
def getStartTimeInNanos (hit : ParsedHit) (mode : Mode) : ℚ :=
  if mode = .jaeger then hit._source.startTime * 1000
  else parseIsoToNano hit._source.startTime

/-- JavaScript object-key coercion: an undefined span id indexes the span
map under the literal key written undefined. -/
def jsKey (o : Option String) : String := o.getD "undefined"

/-- Span id field the mode uses as span-map key (spanID for jaeger, spanId
otherwise). -/
def spanKeyField (mode : Mode) (src : Source) : Option String :=
  if mode = .jaeger then src.spanID else src.spanId

/-- Key under which a hit is stored in the span map. -/
def hitKey (mode : Mode) (hit : ParsedHit) : String :=
  jsKey (spanKeyField mode hit._source)

/-- Keys of the span map built in the first pass of
hitsToHierarchicalSpans (later hits overwrite earlier entries, which
leaves key membership unchanged). -/
def spanMapKeys (hits : List ParsedHit) (mode : Mode) : List String :=
  hits.map (hitKey mode)

/-- Truthy, resolvable parentSpanId of a data-prepper source: the
JavaScript test source.parentSpanId && spanMap[source.parentSpanId]
(undefined and the empty string are falsy). -/
def parentTruthyResolvable (keys : List String) (src : Source) : Prop :=
  src.parentSpanId.getD "" ≠ "" ∧ src.parentSpanId.getD "" ∈ keys

instance (keys : List String) (src : Source) :
    Decidable (parentTruthyResolvable keys src) := by
  unfold parentTruthyResolvable; infer_instance

/-- State threaded through the second pass of hitsToHierarchicalSpans.
The span-map nodes are shared mutable objects in the source; the children
arrays are represented here by the global ordered list of push events
(parent key, child key): each push appends the child to the children array
of the parent node, so the children array of a node p is the ordered
sublist of push events whose first component is p. -/
structure BuildState where
  pushes : List (String × String)
  rootSpans : List String
  alreadyAddedRootSpans : List String
  deriving DecidableEq, Repr

/-- addRootSpan: append the span to rootSpans unless its id was already
added. -/
def addRootSpan (spanId : String) (st : BuildState) : BuildState :=
  if spanId ∈ st.alreadyAddedRootSpans then st
  else { st with rootSpans := st.rootSpans ++ [spanId],
                 alreadyAddedRootSpans := st.alreadyAddedRootSpans ++ [spanId] }

/-- One jaeger reference of the hit with span-map key sid: a CHILD_OF
reference whose target resolves pushes this span onto the children of the
target (the source checks the children array exists first, but it always
does); a FOLLOWS_FROM reference registers this span as a root, guarded by
the same membership test addRootSpan performs. -/
def processReference (keys : List String) (sid : String) (st : BuildState)
    (ref : SpanReference) : BuildState :=
  let st1 :=
    if ref.refType = .CHILD_OF ∧ ref.spanID ∈ keys then
      { st with pushes := st.pushes ++ [(ref.spanID, sid)] }
    else st
  if ref.refType = .FOLLOWS_FROM ∧ sid ∉ st1.alreadyAddedRootSpans then
    addRootSpan sid st1
  else st1

/-- Second-pass body of hitsToHierarchicalSpans for one hit.  Jaeger
branch: fold the references, then register the span as a root if it has no
references or only FOLLOWS_FROM ones.  Data-prepper branch: a truthy,
resolvable parentSpanId attaches the span as a child of the parent,
otherwise a truthy own id present in the map registers it as a root. -/
def processHit (keys : List String) (mode : Mode) (st : BuildState)
    (hit : ParsedHit) : BuildState :=
  if mode = .jaeger then
    let sid := hitKey mode hit
    let references := hit._source.references.getD []
    let st1 := references.foldl (processReference keys sid) st
    if references = [] ∨ ∀ ref ∈ references, ref.refType = RefType.FOLLOWS_FROM then
      addRootSpan sid st1
    else st1
  else
    let sid := hitKey mode hit
    if parentTruthyResolvable keys hit._source then
      (if sid ∈ keys then
        { st with pushes :=
            st.pushes ++ [(hit._source.parentSpanId.getD "", sid)] }
      else st)
    else if (hit._source.spanId.getD "") ≠ "" ∧ sid ∈ keys then
      addRootSpan sid st
    else st

/-- hitsToHierarchicalSpans: build the span-map keys, then fold the
per-hit linkage over the hits.  rootSpans holds the keys of the root nodes
in insertion order and pushes describes the children arrays. -/
def hitsToHierarchicalSpans (hits : List ParsedHit) (mode : Mode) :
    BuildState :=
  hits.foldl (processHit (spanMapKeys hits mode) mode) ⟨[], [], []⟩

/-- Children array of the node with the given key, read off the push
events: pushes append in program order, so filtering the global event list
by parent reproduces each array. -/
def childrenOf (st : BuildState) (p : String) : List String :=
  (st.pushes.filter (fun pr => pr.1 == p)).map Prod.snd

/-- Last hit stored under a key in the span map (later hits overwrite
earlier ones). -/
def nodeHit (hits : List ParsedHit) (mode : Mode) (id : String) :
    Option ParsedHit :=
  (hits.filter (fun h => hitKey mode h == id)).getLast?

/-- Source record of the span-map node under a key. -/
def nodeSource (hits : List ParsedHit) (mode : Mode) (id : String) : Source :=
  ((nodeHit hits mode id).map ParsedHit._source).getD {}

/-- startTimeInNanos stored on the span-map node under a key. -/
def nodeStartNanos (hits : List ParsedHit) (mode : Mode) (id : String) : ℚ :=
  ((nodeHit hits mode id).map (getStartTimeInNanos · mode)).getD 0

/-- Environment createPlotlyData walks: children arrays, per-node
startTimeInNanos and per-node source from the span map. -/
structure SpanEnv where
  children : String → List String
  startNanos : String → ℚ
  source : String → Source

/-- Sort by the comparator on startTimeInNanos: a stable ascending sort
(Array.prototype.sort is stable). -/
def sortByStart (start : String → ℚ) (l : List String) : List String :=
  l.mergeSort (fun a b => decide (start a ≤ start b))

/-- Ids in the order processSpan visits them: the node itself, then its
children sorted ascending by startTimeInNanos, depth first.  The fuel
argument models the JavaScript call stack: the recursion in the source
only returns when the part of the hierarchy reachable from the roots is
acyclic, and the pipeline supplies fuel exceeding every possible chain
length. -/
def visitIds (env : SpanEnv) : ℕ → String → List String
  | 0, _ => []
  | fuel + 1, id =>
      id :: (sortByStart env.startNanos (env.children id)).flatMap
        (visitIds env fuel)

/-- Bar trace pushed per span, restricted to the fields the claims are
about: y and the custom spanId property both hold the parsed span id, base
holds the delay and x the duration (rendering constants are omitted). -/
structure SpanBar where
  x : ℚ
  y : Option String
  base : ℚ
  spanId : Option String
  deriving DecidableEq, Repr

/-- Annotation pushed per span: anchored at the delay on the same row. -/
structure SpanAnn where
  x : ℚ
  y : Option String
  text : String
  deriving DecidableEq, Repr

/-- Aggregate result of createPlotlyData. -/
structure GanttData where
  data : List SpanBar
  annotations : List SpanAnn
  maxX : ℚ
  deriving DecidableEq, Repr

/-- Delay of a node: start time in milliseconds minus the base time the
caller passes in. -/
def delayOf (env : SpanEnv) (startTimeInMs : ℚ) (id : String) : ℚ :=
  nanoToMilliSec (env.startNanos id) - startTimeInMs

/-- Bar built by processSpan for one node. -/
def mkBar (env : SpanEnv) (mode : Mode) (startTimeInMs : ℚ) (id : String) :
    SpanBar :=
  let p := parseSpanHitDataTotal ⟨env.source id⟩ mode
  { x := p.durationInMs, y := p.spanId,
    base := delayOf env startTimeInMs id, spanId := p.spanId }

/-- Annotation text: optional red error marker, then service name,
operation name and the two-decimal duration (undefined fields interpolate
as the string undefined, as in JavaScript templates). -/
def annText (p : SpanBasicData) : String :=
  (if p.error ≠ "" then
      "<span style=\"color: red;\">" ++ p.error ++ "</span>&nbsp;&nbsp;"
    else "") ++
    (p.serviceName.getD "undefined") ++ ": " ++ (p.name.getD "undefined") ++
    " - " ++ toFixed2 p.durationInMs ++ "ms"

/-- Annotation built by processSpan for one node. -/
def mkAnn (env : SpanEnv) (mode : Mode) (startTimeInMs : ℚ) (id : String) :
    SpanAnn :=
  let p := parseSpanHitDataTotal ⟨env.source id⟩ mode
  { x := delayOf env startTimeInMs id, y := p.spanId, text := annText p }

/-- Right end of the bar of a node: delay plus duration, the quantity the
running maximum tracks. -/
def endOf (env : SpanEnv) (mode : Mode) (startTimeInMs : ℚ) (id : String) :
    ℚ :=
  delayOf env startTimeInMs id +
    (parseSpanHitDataTotal ⟨env.source id⟩ mode).durationInMs

/-- processSpan: push the bar and the annotation of the node, update the
running maximum, then recurse into the children sorted ascending by
startTimeInNanos. -/
def processSpan (env : SpanEnv) (mode : Mode) (startTimeInMs : ℚ) :
    ℕ → GanttData → String → GanttData
  | 0, acc, _ => acc
  | fuel + 1, acc, id =>
      let acc1 : GanttData :=
        { data := acc.data ++ [mkBar env mode startTimeInMs id]
          annotations := acc.annotations ++ [mkAnn env mode startTimeInMs id]
          maxX := max acc.maxX (endOf env mode startTimeInMs id) }
      (sortByStart env.startNanos (env.children id)).foldl
        (processSpan env mode startTimeInMs fuel) acc1

/-- Visit order over the sorted root list. -/
def visitForest (env : SpanEnv) (fuel : ℕ) (roots : List String) :
    List String :=
  (sortByStart env.startNanos roots).flatMap (visitIds env fuel)

/-- createPlotlyData: sort the roots by start time and process each.
parseSpanHitData throws on a jaeger node whose process field is missing;
the exception escapes createPlotlyData and discards all output, which the
Except layer models (the visited id sequence does not depend on the parse
results, so the throw condition is a predicate on the visited ids). -/
def createPlotlyData (env : SpanEnv) (mode : Mode) (startTimeInMs : ℚ)
    (fuel : ℕ) (spans : List String) : Except Unit GanttData :=
  if (visitForest env fuel spans).any
      (fun id => mode == Mode.jaeger && (env.source id).process.isNone) then
    .error ()
  else
    .ok ((sortByStart env.startNanos spans).foldl
      (processSpan env mode startTimeInMs fuel) ⟨[], [], 0⟩)

/-- Environment of the hierarchy a hit list builds. -/
def envOf (hits : List ParsedHit) (mode : Mode) : SpanEnv :=
  { children := childrenOf (hitsToHierarchicalSpans hits mode)
    startNanos := nodeStartNanos hits mode
    source := nodeSource hits mode }

/-- Math.min over the root start times in milliseconds, as computed by
SpanDetailPanel before calling createPlotlyData.  Math.min of an empty
spread is Infinity; with no roots nothing is visited and the value is
never used, so the model returns 0 there. -/
def minRootStartMs (hits : List ParsedHit) (mode : Mode) : ℚ :=
  match (hitsToHierarchicalSpans hits mode).rootSpans.map
      (fun id => nanoToMilliSec (nodeStartNanos hits mode id)) with
  | [] => 0
  | x :: xs => xs.foldl min x

/-- Chart model pipeline of SpanDetailPanel: build the hierarchy, take the
minimum start over the root spans, lay the forest out.  Fuel
hits.length + 1 covers every chain the hit list can build when the
reachable hierarchy is acyclic, matching the source, which diverges
otherwise. -/
def buildChartModel (hits : List ParsedHit) (mode : Mode) :
    Except Unit GanttData :=
  createPlotlyData (envOf hits mode) mode (minRootStartMs hits mode)
    (hits.length + 1) (hitsToHierarchicalSpans hits mode).rootSpans

/-- Full range of the viewport: 0 to maxX padded by the fixed 10 percent
design constant; the Reset zoom button applies setSelectedRange at this
range. -/
def fullRange (ganttMax : ℚ) : ℚ × ℚ := (0, ganttMax * (11 / 10))

/-- Annotation re-projection of the layout useMemo of SpanDetailPanel: an
annotation whose anchor lies left of the visible start, on the same row as
its bar, whose bar extends strictly past the visible start, is re-anchored
at the visible start; otherwise it is returned unchanged.  Annotations and
bars are pushed in lockstep, so pairing by zip matches the source
indexing of annotation i with bar i. -/
def adjustAnnotations (gantt : List SpanBar) (anns : List SpanAnn)
    (visibleStart : ℚ) : List SpanAnn :=
  (anns.zip gantt).map (fun pa =>
    if pa.1.x < visibleStart ∧ pa.1.y = pa.2.y ∧
        visibleStart < pa.2.base + pa.2.x then
      { pa.1 with x := visibleStart }
    else pa.1)

/-- Definition following the words of the specification, for comparison
with the source pipeline: the global minimum start time across all spans
of the dataset, in milliseconds (the source instead takes the minimum over
the root spans only). -/
def specGlobalMinStartMs (hits : List ParsedHit) (mode : Mode) : ℚ :=
  match hits.map (fun h => nanoToMilliSec (getStartTimeInNanos h mode)) with
  | [] => 0
  | x :: xs => xs.foldl min x

end TraceVis

namespace TraceVis

/-- Action of visiting a list of ids on the accumulated chart data:
append the bars and annotations, fold the running maximum. -/
def applyIds (env : SpanEnv) (mode : Mode) (startTimeInMs : ℚ)
    (acc : GanttData) (ids : List String) : GanttData :=
  { data := acc.data ++ ids.map (mkBar env mode startTimeInMs)
    annotations := acc.annotations ++ ids.map (mkAnn env mode startTimeInMs)
    maxX := ids.foldl (fun m id => max m (endOf env mode startTimeInMs id))
      acc.maxX }

theorem applyIds_nil (env : SpanEnv) (mode : Mode) (s : ℚ) (acc : GanttData) :
    applyIds env mode s acc [] = acc := by
  simp [applyIds]

theorem applyIds_append (env : SpanEnv) (mode : Mode) (s : ℚ)
    (acc : GanttData) (l₁ l₂ : List String) :
    applyIds env mode s acc (l₁ ++ l₂) =
      applyIds env mode s (applyIds env mode s acc l₁) l₂ := by
  simp [applyIds, List.foldl_append, List.append_assoc]

theorem foldl_applyIds_of (env : SpanEnv) (mode : Mode) (s : ℚ)
    (f : GanttData → String → GanttData) (g : String → List String)
    (hf : ∀ acc id, f acc id = applyIds env mode s acc (g id)) :
    ∀ (l : List String) (acc : GanttData),
      l.foldl f acc = applyIds env mode s acc (l.flatMap g)
  | [], acc => by simp [applyIds_nil]
  | x :: xs, acc => by
      rw [List.foldl_cons, foldl_applyIds_of env mode s f g hf xs, hf,
        List.flatMap_cons, applyIds_append]

theorem processSpan_succ (env : SpanEnv) (mode : Mode) (s : ℚ) (fuel : ℕ)
    (acc : GanttData) (id : String) :
    processSpan env mode s (fuel + 1) acc id =
      (sortByStart env.startNanos (env.children id)).foldl
        (processSpan env mode s fuel) (applyIds env mode s acc [id]) := rfl

theorem processSpan_eq_applyIds (env : SpanEnv) (mode : Mode) (s : ℚ) :
    ∀ (fuel : ℕ) (acc : GanttData) (id : String),
      processSpan env mode s fuel acc id =
        applyIds env mode s acc (visitIds env fuel id)
  | 0, acc, id => by simp [processSpan, visitIds, applyIds_nil]
  | fuel + 1, acc, id => by
      rw [processSpan_succ, foldl_applyIds_of env mode s _ _
        (processSpan_eq_applyIds env mode s fuel), ← applyIds_append,
        visitIds]
      rfl

theorem foldl_processSpan (env : SpanEnv) (mode : Mode) (s : ℚ) (fuel : ℕ)
    (l : List String) (acc : GanttData) :
    l.foldl (processSpan env mode s fuel) acc =
      applyIds env mode s acc (l.flatMap (visitIds env fuel)) :=
  foldl_applyIds_of env mode s _ _ (processSpan_eq_applyIds env mode s fuel)
    l acc

/-- Characterization of a successful createPlotlyData run: bars and
annotations are the per-node records in visit order, and the running
maximum starts from zero. -/
theorem createPlotlyData_ok_eq (env : SpanEnv) (mode : Mode) (s : ℚ)
    (fuel : ℕ) (spans : List String) (g : GanttData)
    (h : createPlotlyData env mode s fuel spans = .ok g) :
    g.data = (visitForest env fuel spans).map (mkBar env mode s) ∧
    g.annotations = (visitForest env fuel spans).map (mkAnn env mode s) ∧
    g.maxX = (visitForest env fuel spans).foldl
      (fun m id => max m (endOf env mode s id)) 0 := by
  unfold createPlotlyData at h
  split at h
  · exact absurd h (by simp)
  · have hg : g = applyIds env mode s ⟨[], [], 0⟩
        ((sortByStart env.startNanos spans).flatMap (visitIds env fuel)) := by
      have := foldl_processSpan env mode s fuel
        (sortByStart env.startNanos spans) ⟨[], [], 0⟩
      cases h
      exact this
    subst hg
    exact ⟨by simp [applyIds, visitForest], by simp [applyIds, visitForest],
      by simp [applyIds, visitForest]⟩

end TraceVis

namespace TraceVis

/-- Push events a single jaeger reference contributes. -/
def refPush (keys : List String) (sid : String) (ref : SpanReference) :
    List (String × String) :=
  if ref.refType = .CHILD_OF ∧ ref.spanID ∈ keys then [(ref.spanID, sid)]
  else []

/-- Push events a single hit contributes. -/
def hitPushes (keys : List String) (mode : Mode) (hit : ParsedHit) :
    List (String × String) :=
  match mode with
  | .jaeger =>
      (hit._source.references.getD []).flatMap
        (refPush keys (hitKey .jaeger hit))
  | _ =>
      if parentTruthyResolvable keys hit._source then
        (if hitKey mode hit ∈ keys then
          [(hit._source.parentSpanId.getD "", hitKey mode hit)]
        else [])
      else []

/-- Condition under which a hit registers its span as a root. -/
def isRootHit (keys : List String) (mode : Mode) (hit : ParsedHit) : Prop :=
  match mode with
  | .jaeger =>
      hit._source.references.getD [] = [] ∨
        ∃ ref ∈ hit._source.references.getD [],
          ref.refType = RefType.FOLLOWS_FROM
  | _ =>
      ¬parentTruthyResolvable keys hit._source ∧
        hit._source.spanId.getD "" ≠ "" ∧ hitKey mode hit ∈ keys

instance (keys : List String) (mode : Mode) (hit : ParsedHit) :
    Decidable (isRootHit keys mode hit) := by
  cases mode <;> (unfold isRootHit; infer_instance)

/-- Invariant of the build state: the root list has no duplicates and
matches the already-added set. -/
def StInv (st : BuildState) : Prop :=
  st.rootSpans.Nodup ∧ ∀ x, x ∈ st.rootSpans ↔ x ∈ st.alreadyAddedRootSpans

theorem stInv_init : StInv ⟨[], [], []⟩ := by
  constructor
  · exact List.nodup_nil
  · intro x; simp

theorem addRootSpan_pushes (s : String) (st : BuildState) :
    (addRootSpan s st).pushes = st.pushes := by
  unfold addRootSpan; split <;> rfl

theorem addRootSpan_inv (s : String) (st : BuildState) (h : StInv st) :
    StInv (addRootSpan s st) := by
  obtain ⟨hnd, hiff⟩ := h
  unfold addRootSpan; split
  · exact ⟨hnd, hiff⟩
  · rename_i hnotmem
    refine ⟨?_, ?_⟩
    · simp only [List.nodup_append, List.nodup_singleton]
      refine ⟨hnd, trivial, ?_⟩
      intro x hx hx1
      simp only [List.mem_singleton] at hx1
      subst hx1
      exact hnotmem ((hiff x).mp hx)
    · intro x
      simp only [List.mem_append, List.mem_singleton]
      exact or_congr_left (hiff x)

theorem addRootSpan_root_mem (s : String) (st : BuildState) (h : StInv st)
    (x : String) :
    x ∈ (addRootSpan s st).rootSpans ↔ x ∈ st.rootSpans ∨ x = s := by
  obtain ⟨_, hiff⟩ := h
  unfold addRootSpan; split
  · rename_i hmem
    constructor
    · exact Or.inl
    · rintro (hx | rfl)
      · exact hx
      · exact (hiff x).mpr hmem
  · simp [List.mem_append]

theorem processReference_pushes (keys : List String) (sid : String)
    (st : BuildState) (ref : SpanReference) :
    (processReference keys sid st ref).pushes =
      st.pushes ++ refPush keys sid ref := by
  simp only [processReference, refPush]
  by_cases h1 : ref.refType = RefType.CHILD_OF ∧ ref.spanID ∈ keys
  · simp only [if_pos h1]
    split
    · rename_i h2
      rw [h1.1] at h2
      exact absurd h2.1 (by decide)
    · rfl
  · simp only [if_neg h1]
    split
    · simp [addRootSpan_pushes]
    · simp

theorem processReference_roots_already (keys : List String) (sid : String)
    (st : BuildState) (ref : SpanReference) (h : StInv st) :
    StInv (processReference keys sid st ref) ∧
      ∀ x, x ∈ (processReference keys sid st ref).rootSpans ↔
        x ∈ st.rootSpans ∨
          (x = sid ∧ ref.refType = RefType.FOLLOWS_FROM) := by
  simp only [processReference]
  by_cases h1 : ref.refType = RefType.CHILD_OF ∧ ref.spanID ∈ keys
  · simp only [if_pos h1]
    have hnoff : ¬ref.refType = RefType.FOLLOWS_FROM := by
      rw [h1.1]; decide
    split
    · rename_i h2
      exact absurd h2.1 hnoff
    · refine ⟨h, ?_⟩
      intro x
      simp [hnoff]
  · simp only [if_neg h1]
    split
    · rename_i h2
      refine ⟨addRootSpan_inv _ _ h, ?_⟩
      intro x
      rw [addRootSpan_root_mem _ _ h x]
      refine or_congr_right ?_
      constructor
      · rintro rfl; exact ⟨rfl, h2.1⟩
      · rintro ⟨rfl, _⟩; rfl
    · rename_i h2
      rw [not_and_or, not_not] at h2
      refine ⟨h, ?_⟩
      intro x
      rcases h2 with hnf | hmem
      · simp only [hnf, and_false, or_false]
      · constructor
        · exact Or.inl
        · rintro (hx | ⟨rfl, _⟩)
          · exact hx
          · exact (h.2 x).mpr hmem

end TraceVis

namespace TraceVis

theorem foldRefs_pushes (keys : List String) (sid : String) :
    ∀ (refs : List SpanReference) (st : BuildState),
      (refs.foldl (processReference keys sid) st).pushes =
        st.pushes ++ refs.flatMap (refPush keys sid)
  | [], st => by simp
  | r :: rs, st => by
      rw [List.foldl_cons, foldRefs_pushes keys sid rs,
        processReference_pushes, List.flatMap_cons, List.append_assoc]

theorem foldRefs_roots_already (keys : List String) (sid : String) :
    ∀ (refs : List SpanReference) (st : BuildState), StInv st →
      StInv (refs.foldl (processReference keys sid) st) ∧
      ∀ x, x ∈ (refs.foldl (processReference keys sid) st).rootSpans ↔
        x ∈ st.rootSpans ∨
          (x = sid ∧ ∃ ref ∈ refs, ref.refType = RefType.FOLLOWS_FROM)
  | [], st, h => ⟨h, by simp⟩
  | r :: rs, st, h => by
      obtain ⟨h1, h2⟩ := processReference_roots_already keys sid st r h
      obtain ⟨h3, h4⟩ :=
        foldRefs_roots_already keys sid rs (processReference keys sid st r) h1
      rw [List.foldl_cons]
      refine ⟨h3, ?_⟩
      intro x
      rw [h4 x, h2 x]
      constructor
      · rintro ((hx | ⟨rfl, hr⟩) | ⟨rfl, ref, href, hf⟩)
        · exact Or.inl hx
        · exact Or.inr ⟨rfl, r, List.mem_cons_self r rs, hr⟩
        · exact Or.inr ⟨rfl, ref, List.mem_cons_of_mem r href, hf⟩
      · rintro (hx | ⟨rfl, ref, href, hf⟩)
        · exact Or.inl (Or.inl hx)
        · rcases List.mem_cons.mp href with rfl | hm
          · exact Or.inl (Or.inr ⟨rfl, hf⟩)
          · exact Or.inr ⟨rfl, ref, hm, hf⟩

theorem isRootHit_jaeger_iff (keys : List String) (hit : ParsedHit) :
    isRootHit keys .jaeger hit ↔
      hit._source.references.getD [] = [] ∨
        ∃ ref ∈ hit._source.references.getD [],
          ref.refType = RefType.FOLLOWS_FROM := Iff.rfl
theorem processHit_pushes (keys : List String) (mode : Mode)
    (st : BuildState) (hit : ParsedHit) :
    (processHit keys mode st hit).pushes =
      st.pushes ++ hitPushes keys mode hit := by
  cases mode with
  | jaeger =>
      simp only [processHit, hitPushes, eq_self_iff_true, if_true]
      split
      · rw [addRootSpan_pushes, foldRefs_pushes]
      · rw [foldRefs_pushes]
  | data_prepper =>
      simp only [processHit, hitPushes]
      rw [if_neg (by decide : ¬(Mode.data_prepper = Mode.jaeger))]
      split
      · split <;> simp
      · split <;> simp [addRootSpan_pushes]
  | custom_data_prepper =>
      simp only [processHit, hitPushes]
      rw [if_neg (by decide : ¬(Mode.custom_data_prepper = Mode.jaeger))]
      split
      · split <;> simp
      · split <;> simp [addRootSpan_pushes]

end TraceVis

namespace TraceVis

theorem processHit_roots_already (keys : List String) (mode : Mode)
    (st : BuildState) (hit : ParsedHit) (h : StInv st) :
    StInv (processHit keys mode st hit) ∧
      ∀ x, x ∈ (processHit keys mode st hit).rootSpans ↔
        x ∈ st.rootSpans ∨ (x = hitKey mode hit ∧ isRootHit keys mode hit) := by
  cases mode with
  | jaeger =>
      simp only [processHit, eq_self_iff_true, if_true]
      obtain ⟨h1, h2⟩ := foldRefs_roots_already keys (hitKey .jaeger hit)
        (hit._source.references.getD []) st h
      split
      · rename_i hcond
        have hroot : isRootHit keys .jaeger hit := by
          rw [isRootHit_jaeger_iff]
          rcases hcond with he | hall
          · exact Or.inl he
          · cases hrefs : hit._source.references.getD [] with
            | nil => exact Or.inl rfl
            | cons r rs =>
                rw [hrefs] at hall
                exact Or.inr ⟨r, List.mem_cons_self r rs,
                  hall r (List.mem_cons_self r rs)⟩
        refine ⟨addRootSpan_inv _ _ h1, ?_⟩
        intro x
        rw [addRootSpan_root_mem _ _ h1 x, h2 x]
        constructor
        · rintro ((hx | ⟨rfl, _⟩) | rfl)
          · exact Or.inl hx
          · exact Or.inr ⟨rfl, hroot⟩
          · exact Or.inr ⟨rfl, hroot⟩
        · rintro (hx | ⟨rfl, _⟩)
          · exact Or.inl (Or.inl hx)
          · exact Or.inr rfl
      · rename_i hcond
        refine ⟨h1, ?_⟩
        intro x
        rw [h2 x, isRootHit_jaeger_iff]
        have hne : ¬hit._source.references.getD [] = [] :=
          fun he => hcond (Or.inl he)
        constructor
        · rintro (hx | ⟨rfl, hff⟩)
          · exact Or.inl hx
          · exact Or.inr ⟨rfl, Or.inr hff⟩
        · rintro (hx | ⟨rfl, he | hff⟩)
          · exact Or.inl hx
          · exact absurd he hne
          · exact Or.inr ⟨rfl, hff⟩
  | data_prepper =>
      simp only [processHit]
      rw [if_neg (by decide : ¬(Mode.data_prepper = Mode.jaeger))]
      split
      · rename_i hptr
        have hnr : ¬isRootHit keys .data_prepper hit := by
          rintro ⟨hnp, _⟩
          exact hnp hptr
        split
        · exact ⟨h, fun x => by simp [hnr]⟩
        · exact ⟨h, fun x => by simp [hnr]⟩
      · rename_i hptr
        split
        · rename_i hc2
          refine ⟨addRootSpan_inv _ _ h, fun x => ?_⟩
          rw [addRootSpan_root_mem _ _ h x]
          refine or_congr_right ?_
          constructor
          · rintro rfl
            exact ⟨rfl, hptr, hc2⟩
          · rintro ⟨rfl, _⟩
            rfl
        · rename_i hc2
          refine ⟨h, fun x => ?_⟩
          have hx : ¬(x = hitKey .data_prepper hit ∧
              isRootHit keys .data_prepper hit) := by
            rintro ⟨rfl, _, h2⟩
            exact hc2 h2
          simp [hx]
  | custom_data_prepper =>
      simp only [processHit]
      rw [if_neg (by decide : ¬(Mode.custom_data_prepper = Mode.jaeger))]
      split
      · rename_i hptr
        have hnr : ¬isRootHit keys .custom_data_prepper hit := by
          rintro ⟨hnp, _⟩
          exact hnp hptr
        split
        · exact ⟨h, fun x => by simp [hnr]⟩
        · exact ⟨h, fun x => by simp [hnr]⟩
      · rename_i hptr
        split
        · rename_i hc2
          refine ⟨addRootSpan_inv _ _ h, fun x => ?_⟩
          rw [addRootSpan_root_mem _ _ h x]
          refine or_congr_right ?_
          constructor
          · rintro rfl
            exact ⟨rfl, hptr, hc2⟩
          · rintro ⟨rfl, _⟩
            rfl
        · rename_i hc2
          refine ⟨h, fun x => ?_⟩
          have hx : ¬(x = hitKey .custom_data_prepper hit ∧
              isRootHit keys .custom_data_prepper hit) := by
            rintro ⟨rfl, _, h2⟩
            exact hc2 h2
          simp [hx]

end TraceVis

namespace TraceVis

theorem foldHits_pushes (keys : List String) (mode : Mode) :
    ∀ (hs : List ParsedHit) (st : BuildState),
      (hs.foldl (processHit keys mode) st).pushes =
        st.pushes ++ hs.flatMap (hitPushes keys mode)
  | [], st => by simp
  | hit :: hs, st => by
      rw [List.foldl_cons, foldHits_pushes keys mode hs, processHit_pushes,
        List.flatMap_cons, List.append_assoc]

theorem foldHits_roots (keys : List String) (mode : Mode) :
    ∀ (hs : List ParsedHit) (st : BuildState), StInv st →
      StInv (hs.foldl (processHit keys mode) st) ∧
      ∀ x, x ∈ (hs.foldl (processHit keys mode) st).rootSpans ↔
        x ∈ st.rootSpans ∨
          ∃ hit ∈ hs, x = hitKey mode hit ∧ isRootHit keys mode hit
  | [], st, h => ⟨h, by simp⟩
  | hit :: hs, st, h => by
      obtain ⟨h1, h2⟩ := processHit_roots_already keys mode st hit h
      obtain ⟨h3, h4⟩ := foldHits_roots keys mode hs
        (processHit keys mode st hit) h1
      rw [List.foldl_cons]
      refine ⟨h3, ?_⟩
      intro x
      rw [h4 x, h2 x]
      constructor
      · rintro ((hx | ⟨rfl, hr⟩) | ⟨h5, hm, rfl, hr⟩)
        · exact Or.inl hx
        · exact Or.inr ⟨hit, List.mem_cons_self hit hs, rfl, hr⟩
        · exact Or.inr ⟨h5, List.mem_cons_of_mem hit hm, rfl, hr⟩
      · rintro (hx | ⟨h5, hm, rfl, hr⟩)
        · exact Or.inl (Or.inl hx)
        · rcases List.mem_cons.mp hm with rfl | hm2
          · exact Or.inl (Or.inr ⟨rfl, hr⟩)
          · exact Or.inr ⟨h5, hm2, rfl, hr⟩

theorem hitsToHierarchicalSpans_pushes (hits : List ParsedHit) (mode : Mode) :
    (hitsToHierarchicalSpans hits mode).pushes =
      hits.flatMap (hitPushes (spanMapKeys hits mode) mode) := by
  unfold hitsToHierarchicalSpans
  rw [foldHits_pushes]
  rfl

theorem hitsToHierarchicalSpans_stInv (hits : List ParsedHit) (mode : Mode) :
    StInv (hitsToHierarchicalSpans hits mode) :=
  (foldHits_roots (spanMapKeys hits mode) mode hits ⟨[], [], []⟩ stInv_init).1

theorem rootSpans_nodup (hits : List ParsedHit) (mode : Mode) :
    (hitsToHierarchicalSpans hits mode).rootSpans.Nodup :=
  (hitsToHierarchicalSpans_stInv hits mode).1

theorem mem_rootSpans_iff (hits : List ParsedHit) (mode : Mode) (x : String) :
    x ∈ (hitsToHierarchicalSpans hits mode).rootSpans ↔
      ∃ hit ∈ hits, x = hitKey mode hit ∧
        isRootHit (spanMapKeys hits mode) mode hit := by
  unfold hitsToHierarchicalSpans
  rw [(foldHits_roots (spanMapKeys hits mode) mode hits ⟨[], [], []⟩
    stInv_init).2 x]
  simp

theorem rootSpans_subset_keys (hits : List ParsedHit) (mode : Mode)
    (x : String) (hx : x ∈ (hitsToHierarchicalSpans hits mode).rootSpans) :
    x ∈ spanMapKeys hits mode := by
  obtain ⟨hit, hm, rfl, _⟩ := (mem_rootSpans_iff hits mode x).mp hx
  exact List.mem_map_of_mem (hitKey mode) hm

theorem hitPushes_mem (keys : List String) (mode : Mode) (hit : ParsedHit)
    (pr : String × String) (h : pr ∈ hitPushes keys mode hit) :
    pr.1 ∈ keys ∧ pr.2 = hitKey mode hit := by
  cases mode with
  | jaeger =>
      simp only [hitPushes, List.mem_flatMap] at h
      obtain ⟨ref, _, hr⟩ := h
      simp only [refPush] at hr
      split at hr
      · rename_i hc
        rcases List.mem_singleton.mp hr with rfl
        exact ⟨hc.2, rfl⟩
      · exact absurd hr (List.not_mem_nil pr)
  | data_prepper =>
      simp only [hitPushes] at h
      split at h
      · rename_i hc
        split at h
        · rcases List.mem_singleton.mp h with rfl
          exact ⟨hc.2, rfl⟩
        · exact absurd h (List.not_mem_nil pr)
      · exact absurd h (List.not_mem_nil pr)
  | custom_data_prepper =>
      simp only [hitPushes] at h
      split at h
      · rename_i hc
        split at h
        · rcases List.mem_singleton.mp h with rfl
          exact ⟨hc.2, rfl⟩
        · exact absurd h (List.not_mem_nil pr)
      · exact absurd h (List.not_mem_nil pr)

theorem mem_pushes_keys (hits : List ParsedHit) (mode : Mode)
    (pr : String × String)
    (h : pr ∈ (hitsToHierarchicalSpans hits mode).pushes) :
    pr.1 ∈ spanMapKeys hits mode ∧ pr.2 ∈ spanMapKeys hits mode := by
  rw [hitsToHierarchicalSpans_pushes] at h
  rw [List.mem_flatMap] at h
  obtain ⟨hit, hm, hpr⟩ := h
  obtain ⟨h1, h2⟩ := hitPushes_mem _ mode hit pr hpr
  exact ⟨h1, h2 ▸ List.mem_map_of_mem (hitKey mode) hm⟩

theorem mem_childrenOf (st : BuildState) (p c : String) :
    c ∈ childrenOf st p ↔ (p, c) ∈ st.pushes := by
  unfold childrenOf
  rw [List.mem_map]
  constructor
  · rintro ⟨pr, hpr, rfl⟩
    obtain ⟨hmem, hfst⟩ := List.mem_filter.mp hpr
    have : pr.1 = p := by simpa using hfst
    rw [← this]
    exact hmem
  · intro hm
    exact ⟨(p, c), List.mem_filter.mpr ⟨hm, by simp⟩, rfl⟩

theorem visitIds_subset (env : SpanEnv) :
    ∀ (fuel : ℕ) (a x : String), x ∈ visitIds env fuel a →
      x = a ∨ ∃ p, x ∈ env.children p
  | 0, a, x, hx => absurd hx (List.not_mem_nil x)
  | fuel + 1, a, x, hx => by
      rcases List.mem_cons.mp hx with rfl | hx2
      · exact Or.inl rfl
      · rw [List.mem_flatMap] at hx2
        obtain ⟨c, hc, hxc⟩ := hx2
        rcases visitIds_subset env fuel c x hxc with rfl | hp
        · refine Or.inr ⟨a, ?_⟩
          unfold sortByStart at hc
          exact (List.mem_mergeSort).mp hc
        · exact Or.inr hp

theorem visitForest_subset (env : SpanEnv) (fuel : ℕ) (roots : List String)
    (x : String) (hx : x ∈ visitForest env fuel roots) :
    x ∈ roots ∨ ∃ p, x ∈ env.children p := by
  unfold visitForest at hx
  rw [List.mem_flatMap] at hx
  obtain ⟨r, hr, hxr⟩ := hx
  rcases visitIds_subset env fuel r x hxr with rfl | hp
  · unfold sortByStart at hr
    exact Or.inl ((List.mem_mergeSort).mp hr)
  · exact Or.inr hp

theorem visitForest_subset_keys (hits : List ParsedHit) (mode : Mode)
    (fuel : ℕ) (x : String)
    (hx : x ∈ visitForest (envOf hits mode) fuel
      (hitsToHierarchicalSpans hits mode).rootSpans) :
    x ∈ spanMapKeys hits mode := by
  rcases visitForest_subset _ fuel _ x hx with hr | ⟨p, hp⟩
  · exact rootSpans_subset_keys hits mode x hr
  · have : (p, x) ∈ (hitsToHierarchicalSpans hits mode).pushes :=
      (mem_childrenOf _ p x).mp hp
    exact (mem_pushes_keys hits mode (p, x) this).2

end TraceVis

namespace TraceVis

/-- Parent assignment read off the push events: the first push with the
given child determines the node holding it (under the single-attachment
hypotheses of the claims it is the only one). -/
def parentOf (st : BuildState) (c : String) : Option String :=
  (st.pushes.find? (fun pr => pr.2 == c)).map Prod.fst

/-- Iterated parent: follow the parent assignment n steps. -/
def iterParent (po : String → Option String) : ℕ → String → Option String
  | 0, x => some x
  | n + 1, x => (po x).bind (iterParent po n)

theorem iterParent_add (po : String → Option String) :
    ∀ (m n : ℕ) (x : String),
      iterParent po (m + n) x = (iterParent po m x).bind (iterParent po n)
  | 0, n, x => by simp [iterParent]
  | m + 1, n, x => by
      rw [Nat.succ_add]
      show (po x).bind (iterParent po (m + n)) = _
      rw [show iterParent po (m + 1) x = (po x).bind (iterParent po m) from
        rfl, Option.bind_assoc]
      cases po x with
      | none => simp
      | some p => simp [iterParent_add po m n p]

theorem iterParent_succ_right (po : String → Option String) (n : ℕ)
    (x : String) :
    iterParent po (n + 1) x = (iterParent po n x).bind po := by
  rw [iterParent_add po n 1 x]
  cases iterParent po n x with
  | none => rfl
  | some y => simp [iterParent]

theorem iterParent_none_mono (po : String → Option String) {m n : ℕ}
    (hmn : m ≤ n) {x : String} (h : iterParent po m x = none) :
    iterParent po n x = none := by
  obtain ⟨k, rfl⟩ := Nat.exists_eq_add_of_le hmn
  rw [iterParent_add po m k x, h]
  rfl

theorem lt_of_iterParent_some (po : String → Option String) {m n : ℕ}
    {x : String} {y : String} (hs : iterParent po m x = some y)
    (hn : iterParent po n x = none) : m < n := by
  by_contra hc
  rw [iterParent_none_mono po (Nat.le_of_not_lt hc) hn] at hs
  exact Option.noConfusion hs

/-- Bounded reachability along the parent chain. -/
def reachesIn (po : String → Option String) (N : ℕ) (a x : String) : Prop :=
  ∃ n, n ≤ N ∧ iterParent po n x = some a

instance (po : String → Option String) (N : ℕ) (a x : String) :
    Decidable (reachesIn po N a x) := by
  refine decidable_of_iff ((List.range (N + 1)).any
    (fun n => iterParent po n x == some a) = true) ?_
  rw [List.any_eq_true]
  constructor
  · rintro ⟨n, hn, h⟩
    exact ⟨n, Nat.lt_succ_iff.mp (List.mem_range.mp hn), eq_of_beq h⟩
  · rintro ⟨n, hn, h⟩
    exact ⟨n, List.mem_range.mpr (Nat.lt_succ_iff.mpr hn), beq_iff_eq.mpr h⟩

/-- Descendant list: the keys whose parent chain passes through a. -/
def descList (keys : List String) (po : String → Option String) (N : ℕ)
    (a : String) : List String :=
  keys.filter (fun x => decide (reachesIn po N a x))

/-- Assumptions making the children relation a finite forest: unique keys,
children lists coherent with a single-valued parent assignment staying
inside the keys, duplicate-free roots that are exactly the parentless
keys, and parent chains that die out within N steps. -/
structure ForestAssumptions (keys : List String)
    (po : String → Option String) (ch : String → List String)
    (roots : List String) (N : ℕ) : Prop where
  keys_nodup : keys.Nodup
  mem_ch_iff : ∀ p c, c ∈ ch p ↔ po c = some p
  po_keys : ∀ c p, po c = some p → c ∈ keys ∧ p ∈ keys
  ch_nodup : ∀ p, (ch p).Nodup
  roots_iff : ∀ r, r ∈ roots ↔ r ∈ keys ∧ po r = none
  roots_nodup : roots.Nodup
  term : ∀ x ∈ keys, iterParent po N x = none

namespace ForestAssumptions

variable {keys : List String} {po : String → Option String}
variable {ch : String → List String} {roots : List String} {N : ℕ}

theorem no_loop (FA : ForestAssumptions keys po ch roots N) {a : String}
    (ha : a ∈ keys) {p : ℕ} (hp : 1 ≤ p) :
    iterParent po p a ≠ some a := by
  intro hloop
  have hmul : ∀ k, iterParent po (k * p) a = some a := by
    intro k
    induction k with
    | zero => simp [iterParent]
    | succ k ih =>
        rw [Nat.succ_mul, iterParent_add po (k * p) p a, ih]
        exact hloop
  have h1 : iterParent po (N * p) a = some a := hmul N
  have h2 : iterParent po (N * p) a = none :=
    iterParent_none_mono po (Nat.le_mul_of_pos_right N hp) (FA.term a ha)
  rw [h1] at h2
  exact Option.noConfusion h2

theorem reach_step {c a : String} (hpc : po c = some a) {x : String} {m : ℕ}
    (h : iterParent po m x = some c) :
    iterParent po (m + 1) x = some a := by
  rw [iterParent_succ_right po m x, h]
  exact hpc

theorem linear {n m : ℕ} (hnm : n ≤ m) {x c c' : String}
    (h1 : iterParent po n x = some c) (h2 : iterParent po m x = some c') :
    iterParent po (m - n) c = some c' := by
  have := iterParent_add po n (m - n) x
  rw [Nat.add_sub_cancel' hnm, h1] at this
  rw [h2] at this
  exact this.symm

theorem child_reach_unique_le (FA : ForestAssumptions keys po ch roots N)
    {a c c' x : String} (hpc : po c = some a) (hpc' : po c' = some a)
    {n m : ℕ} (hnm : n ≤ m) (h1 : iterParent po n x = some c)
    (h2 : iterParent po m x = some c') : c = c' := by
  have hlin := linear hnm h1 h2
  cases hk : m - n with
  | zero =>
      rw [hk] at hlin
      exact Option.some.inj hlin
  | succ k =>
      rw [hk] at hlin
      have hka : iterParent po k a = some c' := by
        have : (po c).bind (iterParent po k) = some c' := hlin
        rw [hpc] at this
        exact this
      have hloop : iterParent po (k + 1) a = some a := reach_step hpc' hka
      exact absurd hloop
        (FA.no_loop (FA.po_keys c a hpc).2 (Nat.le_add_left 1 k))

theorem child_reach_unique (FA : ForestAssumptions keys po ch roots N)
    {a c c' x : String} (hpc : po c = some a) (hpc' : po c' = some a)
    {n m : ℕ} (h1 : iterParent po n x = some c)
    (h2 : iterParent po m x = some c') : c = c' := by
  rcases Nat.le_total n m with h | h
  · exact child_reach_unique_le FA hpc hpc' h h1 h2
  · exact (child_reach_unique_le FA hpc' hpc h h2 h1).symm

theorem root_reach_unique (FA : ForestAssumptions keys po ch roots N)
    {r r' x : String} (hr : r ∈ roots) (hr' : r' ∈ roots) {n m : ℕ}
    (h1 : iterParent po n x = some r) (h2 : iterParent po m x = some r') :
    r = r' := by
  have key : ∀ {s s' : String} {k l : ℕ}, s ∈ roots → s' ∈ roots → k ≤ l →
      iterParent po k x = some s → iterParent po l x = some s' → s = s' := by
    intro s s' k l hs hs' hkl hk hl
    have hlin := linear hkl hk hl
    cases hd : l - k with
    | zero =>
        rw [hd] at hlin
        exact Option.some.inj hlin
    | succ d =>
        rw [hd] at hlin
        have : (po s).bind (iterParent po d) = some s' := hlin
        rw [((FA.roots_iff s).mp hs).2] at this
        exact absurd this (by simp)
  rcases Nat.le_total n m with h | h
  · exact key hr hr' h h1 h2
  · exact (key hr' hr h h2 h1).symm

theorem not_reach_child_self (FA : ForestAssumptions keys po ch roots N)
    {a c : String} (hpc : po c = some a) {m : ℕ} :
    iterParent po m a ≠ some c := by
  intro h
  have hloop : iterParent po (m + 1) a = some a := reach_step hpc h
  exact absurd hloop
    (FA.no_loop (FA.po_keys c a hpc).2 (Nat.le_add_left 1 m))

end ForestAssumptions

end TraceVis

namespace TraceVis

theorem filter_or_perm {α : Type} (p q : α → Prop) [DecidablePred p]
    [DecidablePred q] :
    ∀ (l : List α), (∀ x ∈ l, ¬(p x ∧ q x)) →
      (l.filter (fun x => decide (p x ∨ q x))).Perm
        (l.filter (fun x => decide (p x)) ++
          l.filter (fun x => decide (q x)))
  | [], _ => by simp
  | x :: xs, hd => by
      have hx := hd x (List.mem_cons_self x xs)
      have ih := filter_or_perm p q xs
        (fun y hy => hd y (List.mem_cons_of_mem x hy))
      simp only [List.filter_cons, decide_eq_true_eq]
      by_cases hp : p x
      · have hq : ¬q x := fun h => hx ⟨hp, h⟩
        rw [if_pos (Or.inl hp), if_pos hp, if_neg hq, List.cons_append]
        exact ih.cons x
      · by_cases hq : q x
        · rw [if_pos (Or.inr hq), if_neg hp, if_pos hq]
          exact (ih.cons x).trans List.perm_middle.symm
        · rw [if_neg (by rintro (h | h) <;> [exact hp h; exact hq h]),
            if_neg hp, if_neg hq]
          exact ih

theorem filter_exists_perm {α β : Type} (P : β → α → Prop)
    [∀ c, DecidablePred (P c)] :
    ∀ (cs : List β) (l : List α), cs.Nodup →
      (∀ x ∈ l, ∀ c ∈ cs, ∀ c' ∈ cs, P c x → P c' x → c = c') →
      (l.filter (fun x => decide (∃ c ∈ cs, P c x))).Perm
        (cs.flatMap (fun c => l.filter (fun x => decide (P c x))))
  | [], l, _, _ => by simp
  | c :: cs, l, hnd, hdisj => by
      have hcns : c ∉ cs := (List.nodup_cons.mp hnd).1
      have h1 : l.filter (fun x => decide (∃ d ∈ c :: cs, P d x)) =
          l.filter (fun x => decide (P c x ∨ ∃ d ∈ cs, P d x)) := by
        apply List.filter_congr
        intro x _
        apply decide_eq_decide.mpr
        constructor
        · rintro ⟨d, hdm, hdx⟩
          rcases List.mem_cons.mp hdm with rfl | hdm2
          · exact Or.inl hdx
          · exact Or.inr ⟨d, hdm2, hdx⟩
        · rintro (h | ⟨d, hdm, hdx⟩)
          · exact ⟨c, List.mem_cons_self c cs, h⟩
          · exact ⟨d, List.mem_cons_of_mem c hdm, hdx⟩
      have h2 := filter_or_perm (fun x => P c x)
        (fun x => ∃ d ∈ cs, P d x) l ?_
      · have ih := filter_exists_perm P cs l (List.nodup_cons.mp hnd).2 ?_
        · rw [h1, List.flatMap_cons]
          exact h2.trans (List.Perm.append_left _ ih)
        · intro x hx d hdm d' hdm' hdx hdx'
          exact hdisj x hx d (List.mem_cons_of_mem c hdm) d'
            (List.mem_cons_of_mem c hdm') hdx hdx'
      · intro x hx
        rintro ⟨hcx, d, hdm, hdx⟩
        exact hcns (hdisj x hx c (List.mem_cons_self c cs) d
          (List.mem_cons_of_mem c hdm) hcx hdx ▸ hdm)

theorem filter_eq_singleton_of_nodup {a : String} :
    ∀ {l : List String}, l.Nodup → a ∈ l →
      l.filter (fun x => decide (x = a)) = [a]
  | [], _, ha => absurd ha (List.not_mem_nil a)
  | x :: xs, hnd, ha => by
      by_cases hxa : x = a
      · subst hxa
        rw [List.filter_cons_of_pos (by simp)]
        have hnx : x ∉ xs := (List.nodup_cons.mp hnd).1
        have hnil : xs.filter (fun y => decide (y = x)) = [] := by
          apply List.filter_eq_nil_iff.mpr
          intro y hy
          simp only [decide_eq_true_eq]
          rintro rfl
          exact hnx hy
        rw [hnil]
      · have ha2 : a ∈ xs := by
          rcases List.mem_cons.mp ha with h | h
          · exact absurd h.symm hxa
          · exact h
        rw [List.filter_cons_of_neg (by simp [hxa])]
        exact filter_eq_singleton_of_nodup (List.nodup_cons.mp hnd).2 ha2

end TraceVis

namespace TraceVis

namespace ForestAssumptions

variable {keys : List String} {po : String → Option String}
variable {ch : String → List String} {roots : List String} {N : ℕ}

theorem reach_iff (FA : ForestAssumptions keys po ch roots N) {a : String}
    (ha : a ∈ keys) {x : String} (hx : x ∈ keys) :
    reachesIn po N a x ↔ x = a ∨ ∃ c ∈ ch a, reachesIn po N c x := by
  constructor
  · rintro ⟨n, hn, hr⟩
    cases n with
    | zero =>
        exact Or.inl (Option.some.inj hr)
    | succ m =>
        rw [iterParent_succ_right po m x] at hr
        obtain ⟨c, hc1, hc2⟩ := Option.bind_eq_some.mp hr
        refine Or.inr ⟨c, (FA.mem_ch_iff a c).mpr hc2, m,
          le_trans (Nat.le_succ m) hn, hc1⟩
  · rintro (rfl | ⟨c, hc, m, hm, hr⟩)
    · exact ⟨0, Nat.zero_le N, rfl⟩
    · have hpc : po c = some a := (FA.mem_ch_iff a c).mp hc
      have hstep := reach_step hpc hr
      have hlt : m < N := lt_of_iterParent_some po hr (FA.term x hx)
      exact ⟨m + 1, hlt, hstep⟩

theorem desc_unfold (FA : ForestAssumptions keys po ch roots N) {a : String}
    (ha : a ∈ keys) :
    (descList keys po N a).Perm (a :: (ch a).flatMap (descList keys po N)) := by
  have h1 : descList keys po N a =
      keys.filter (fun x =>
        decide (x = a ∨ ∃ c ∈ ch a, reachesIn po N c x)) := by
    apply List.filter_congr
    intro x hx
    exact decide_eq_decide.mpr (FA.reach_iff ha hx)
  have h2 := filter_or_perm (fun x => x = a)
    (fun x => ∃ c ∈ ch a, reachesIn po N c x) keys ?_
  · have h3 := filter_exists_perm (fun c x => reachesIn po N c x) (ch a)
      keys (FA.ch_nodup a) ?_
    · rw [descList] at *
      rw [h1]
      refine h2.trans ?_
      rw [filter_eq_singleton_of_nodup FA.keys_nodup ha]
      exact h3.cons a
    · intro x _ c hc c' hc' hcx hcx'
      obtain ⟨n, _, hn⟩ := hcx
      obtain ⟨m, _, hm⟩ := hcx'
      exact child_reach_unique FA ((FA.mem_ch_iff a c).mp hc)
        ((FA.mem_ch_iff a c').mp hc') hn hm
  · rintro x hx ⟨rfl, c, hc, m, _, hm⟩
    exact not_reach_child_self FA ((FA.mem_ch_iff x c).mp hc) hm

theorem visit_perm (FA : ForestAssumptions keys po ch roots N)
    (env : SpanEnv) (henv : ∀ id, env.children id = ch id) :
    ∀ (fuel : ℕ) (a : String), a ∈ keys →
      (∀ x ∈ keys, ∀ n, iterParent po n x = some a → n < fuel) →
      (visitIds env fuel a).Perm (descList keys po N a)
  | 0, a, ha, hq => absurd (hq a ha 0 rfl) (Nat.not_lt_zero 0)
  | fuel + 1, a, ha, hq => by
      show (a :: (sortByStart env.startNanos (env.children a)).flatMap
        (visitIds env fuel)).Perm _
      have hstep : ∀ c ∈ sortByStart env.startNanos (env.children a),
          (visitIds env fuel c).Perm (descList keys po N c) := by
        intro c hc
        rw [sortByStart, List.mem_mergeSort, henv a] at hc
        have hpc : po c = some a := (FA.mem_ch_iff a c).mp hc
        refine visit_perm FA env henv fuel c (FA.po_keys c a hpc).1 ?_
        intro x hx n hn
        have := hq x hx (n + 1) (reach_step hpc hn)
        omega
      refine List.Perm.trans (List.Perm.cons a ?_) (FA.desc_unfold ha).symm
      refine List.Perm.trans (List.Perm.flatMap_left _ hstep) ?_
      have hsp : (sortByStart env.startNanos (env.children a)).Perm (ch a) := by
        rw [henv a]
        exact List.mergeSort_perm (ch a) _
      exact hsp.flatMap_right (descList keys po N)

theorem exists_root_reach (FA : ForestAssumptions keys po ch roots N) :
    ∀ (m : ℕ) (x : String), x ∈ keys → iterParent po m x = none →
      ∃ r ∈ roots, reachesIn po N r x
  | 0, x, _, hm => absurd hm (by simp [iterParent])
  | m + 1, x, hx, hm => by
      cases hpx : po x with
      | none =>
          refine ⟨x, (FA.roots_iff x).mpr ⟨hx, hpx⟩, 0, Nat.zero_le N, rfl⟩
      | some p =>
          have hmp : iterParent po m p = none := by
            show iterParent po m p = none
            have : (po x).bind (iterParent po m) = none := hm
            rw [hpx] at this
            exact this
          obtain ⟨r, hr, k, hk, hreach⟩ := exists_root_reach FA m p
            (FA.po_keys x p hpx).2 hmp
          have hstep : iterParent po (k + 1) x = some r := by
            show (po x).bind (iterParent po k) = some r
            rw [hpx]
            exact hreach
          have hlt : k + 1 < N :=
            lt_of_iterParent_some po hstep (FA.term x hx)
          exact ⟨r, hr, k + 1, Nat.le_of_lt hlt, hstep⟩

theorem keys_perm_roots_desc (FA : ForestAssumptions keys po ch roots N) :
    keys.Perm (roots.flatMap (descList keys po N)) := by
  have hcov : ∀ x ∈ keys, ∃ r ∈ roots, reachesIn po N r x := by
    intro x hx
    exact FA.exists_root_reach N x hx (FA.term x hx)
  have hfull : keys.filter
      (fun x => decide (∃ r ∈ roots, reachesIn po N r x)) = keys := by
    apply List.filter_eq_self.mpr
    intro x hx
    exact decide_eq_true (hcov x hx)
  have h3 := filter_exists_perm (fun r x => reachesIn po N r x) roots keys
    FA.roots_nodup ?_
  · rw [hfull] at h3
    exact h3
  · intro x _ r hr r' hr' hrx hrx'
    obtain ⟨n, _, hn⟩ := hrx
    obtain ⟨m, _, hm⟩ := hrx'
    exact root_reach_unique FA hr hr' hn hm

theorem visitForest_perm_keys (FA : ForestAssumptions keys po ch roots N)
    (env : SpanEnv) (henv : ∀ id, env.children id = ch id) :
    (visitForest env (N + 1) roots).Perm keys := by
  unfold visitForest
  have hstep : ∀ r ∈ sortByStart env.startNanos roots,
      (visitIds env (N + 1) r).Perm (descList keys po N r) := by
    intro r hr
    rw [sortByStart, List.mem_mergeSort] at hr
    refine visit_perm FA env henv (N + 1) r ((FA.roots_iff r).mp hr).1 ?_
    intro x hx n hn
    have := lt_of_iterParent_some po hn (FA.term x hx)
    omega
  refine List.Perm.trans (List.Perm.flatMap_left _ hstep) ?_
  have hsp : (sortByStart env.startNanos roots).Perm roots :=
    List.mergeSort_perm roots _
  exact (hsp.flatMap_right (descList keys po N)).trans
    (FA.keys_perm_roots_desc).symm

end ForestAssumptions

end TraceVis

namespace TraceVis

/-- Hypothesis: the span-map keys of the hit set are pairwise distinct. -/
def UniqueKeys (hits : List ParsedHit) (mode : Mode) : Prop :=
  (spanMapKeys hits mode).Nodup

instance (hits : List ParsedHit) (mode : Mode) :
    Decidable (UniqueKeys hits mode) := by
  unfold UniqueKeys; infer_instance

/-- Hypothesis: every hit carries a truthy span id. -/
def KeysTruthy (hits : List ParsedHit) (mode : Mode) : Prop :=
  ∀ hit ∈ hits, (spanKeyField mode hit._source).getD "" ≠ ""

instance (hits : List ParsedHit) (mode : Mode) :
    Decidable (KeysTruthy hits mode) := by
  unfold KeysTruthy; infer_instance

/-- Hypothesis: in jaeger mode each hit carries at most one CHILD_OF
reference. -/
def AtMostOneChildRef (hits : List ParsedHit) (mode : Mode) : Prop :=
  mode = .jaeger → ∀ hit ∈ hits,
    ((hit._source.references.getD []).filter
      (fun r => r.refType == RefType.CHILD_OF)).length ≤ 1

instance (hits : List ParsedHit) (mode : Mode) :
    Decidable (AtMostOneChildRef hits mode) := by
  unfold AtMostOneChildRef; infer_instance

/-- Hypothesis: in jaeger mode no hit mixes CHILD_OF and FOLLOWS_FROM
references. -/
def NoMixedRefs (hits : List ParsedHit) (mode : Mode) : Prop :=
  mode = .jaeger → ∀ hit ∈ hits,
    ¬((∃ ref ∈ hit._source.references.getD [],
        ref.refType = RefType.CHILD_OF) ∧
      (∃ ref ∈ hit._source.references.getD [],
        ref.refType = RefType.FOLLOWS_FROM))

instance (hits : List ParsedHit) (mode : Mode) :
    Decidable (NoMixedRefs hits mode) := by
  unfold NoMixedRefs; infer_instance

/-- Hypothesis: every parent or reference id resolves within the hit
set. -/
def RefsResolvable (hits : List ParsedHit) (mode : Mode) : Prop :=
  match mode with
  | .jaeger => ∀ hit ∈ hits, ∀ ref ∈ hit._source.references.getD [],
      ref.spanID ∈ spanMapKeys hits mode
  | _ => ∀ hit ∈ hits, hit._source.parentSpanId.getD "" ≠ "" →
      hit._source.parentSpanId.getD "" ∈ spanMapKeys hits mode

instance (hits : List ParsedHit) (mode : Mode) :
    Decidable (RefsResolvable hits mode) :=
  match mode with
  | .jaeger => inferInstanceAs (Decidable (∀ hit ∈ hits,
      ∀ ref ∈ hit._source.references.getD [],
        ref.spanID ∈ spanMapKeys hits .jaeger))
  | .data_prepper => inferInstanceAs (Decidable (∀ hit ∈ hits,
      hit._source.parentSpanId.getD "" ≠ "" →
        hit._source.parentSpanId.getD "" ∈ spanMapKeys hits .data_prepper))
  | .custom_data_prepper => inferInstanceAs (Decidable (∀ hit ∈ hits,
      hit._source.parentSpanId.getD "" ≠ "" →
        hit._source.parentSpanId.getD "" ∈
          spanMapKeys hits .custom_data_prepper))

/-- Hypothesis: every parent chain dies out within hits.length steps (the
hierarchy reachable from anywhere is acyclic). -/
def ChainsTerminate (hits : List ParsedHit) (mode : Mode) : Prop :=
  ∀ x ∈ spanMapKeys hits mode,
    iterParent (parentOf (hitsToHierarchicalSpans hits mode))
      hits.length x = none

instance (hits : List ParsedHit) (mode : Mode) :
    Decidable (ChainsTerminate hits mode) := by
  unfold ChainsTerminate; infer_instance

/-- Hypothesis: in jaeger mode every hit carries a process object, so
parseSpanHitData cannot throw. -/
def ProcessPresent (hits : List ParsedHit) (mode : Mode) : Prop :=
  mode = .jaeger → ∀ hit ∈ hits, hit._source.process.isSome = true

instance (hits : List ParsedHit) (mode : Mode) :
    Decidable (ProcessPresent hits mode) := by
  unfold ProcessPresent; infer_instance

theorem length_le_one_nodup {α : Type} {l : List α} (h : l.length ≤ 1) :
    l.Nodup := by
  cases l with
  | nil => exact List.nodup_nil
  | cons x xs =>
      cases xs with
      | nil => simp
      | cons y ys => simp at h

theorem refPush_length_le (keys : List String) (sid : String) :
    ∀ (refs : List SpanReference),
      (refs.flatMap (refPush keys sid)).length ≤
        (refs.filter (fun r => r.refType == RefType.CHILD_OF)).length
  | [] => by simp
  | r :: rs => by
      rw [List.flatMap_cons, List.length_append, List.filter_cons]
      have ih := refPush_length_le keys sid rs
      by_cases hc : r.refType = RefType.CHILD_OF
      · have : (r.refType == RefType.CHILD_OF) = true := beq_iff_eq.mpr hc
        rw [this, if_pos rfl, List.length_cons]
        have hlen : (refPush keys sid r).length ≤ 1 := by
          unfold refPush
          split <;> simp
        omega
      · have hb : (r.refType == RefType.CHILD_OF) = false := by
          simpa using hc
        rw [hb]
        have hlen : (refPush keys sid r).length = 0 := by
          unfold refPush
          rw [if_neg (fun hx => hc hx.1)]
          rfl
        simp only [if_neg (by simp : ¬(false = true))]
        omega

theorem hitPushes_length_le (keys : List String) (mode : Mode)
    (hit : ParsedHit)
    (h : mode = .jaeger →
      ((hit._source.references.getD []).filter
        (fun r => r.refType == RefType.CHILD_OF)).length ≤ 1) :
    (hitPushes keys mode hit).length ≤ 1 := by
  cases mode with
  | jaeger =>
      calc (hitPushes keys .jaeger hit).length
          ≤ ((hit._source.references.getD []).filter
              (fun r => r.refType == RefType.CHILD_OF)).length :=
            refPush_length_le keys (hitKey .jaeger hit) _
        _ ≤ 1 := h rfl
  | data_prepper =>
      show (if parentTruthyResolvable keys hit._source then
          (if hitKey .data_prepper hit ∈ keys then
            [(hit._source.parentSpanId.getD "", hitKey .data_prepper hit)]
          else []) else []).length ≤ 1
      split
      · split <;> simp
      · simp
  | custom_data_prepper =>
      show (if parentTruthyResolvable keys hit._source then
          (if hitKey .custom_data_prepper hit ∈ keys then
            [(hit._source.parentSpanId.getD "",
              hitKey .custom_data_prepper hit)]
          else []) else []).length ≤ 1
      split
      · split <;> simp
      · simp

theorem pushes_snd_nodup_aux (keys : List String) (mode : Mode) :
    ∀ (hs : List ParsedHit), (hs.map (hitKey mode)).Nodup →
      (∀ hit ∈ hs, (hitPushes keys mode hit).length ≤ 1) →
      ((hs.flatMap (hitPushes keys mode)).map Prod.snd).Nodup
  | [], _, _ => by simp
  | hit :: hs, hnd, hlen => by
      rw [List.flatMap_cons, List.map_append]
      have hinner : ((hitPushes keys mode hit).map Prod.snd).Nodup := by
        refine length_le_one_nodup ?_
        rw [List.length_map]
        exact hlen hit (List.mem_cons_self hit hs)
      have hrest := pushes_snd_nodup_aux keys mode hs
        (List.nodup_cons.mp (by simpa using hnd)).2
        (fun h2 hm => hlen h2 (List.mem_cons_of_mem hit hm))
      rw [List.nodup_append]
      refine ⟨hinner, hrest, ?_⟩
      intro x hx1 hx2
      have hx1k : x = hitKey mode hit := by
        rw [List.mem_map] at hx1
        obtain ⟨pr, hpr, rfl⟩ := hx1
        exact (hitPushes_mem keys mode hit pr hpr).2
      rw [List.mem_map] at hx2
      obtain ⟨pr, hpr, rfl⟩ := hx2
      rw [List.mem_flatMap] at hpr
      obtain ⟨hit2, hm2, hpr2⟩ := hpr
      have hx2k : pr.2 = hitKey mode hit2 :=
        (hitPushes_mem keys mode hit2 pr hpr2).2
      have hhd : hitKey mode hit ∉ hs.map (hitKey mode) :=
        (List.nodup_cons.mp (by simpa using hnd)).1
      exact hhd (by
        rw [← hx1k, hx2k] at *
        exact hx2k ▸ List.mem_map_of_mem (hitKey mode) hm2)

theorem pushes_snd_nodup (hits : List ParsedHit) (mode : Mode)
    (hu : UniqueKeys hits mode) (h1 : AtMostOneChildRef hits mode) :
    (((hitsToHierarchicalSpans hits mode).pushes).map Prod.snd).Nodup := by
  rw [hitsToHierarchicalSpans_pushes]
  exact pushes_snd_nodup_aux (spanMapKeys hits mode) mode hits hu
    (fun hit hm => hitPushes_length_le _ mode hit
      (fun hj => h1 hj hit hm))

theorem find_snd_eq :
    ∀ {l : List (String × String)}, ((l.map Prod.snd).Nodup) →
      ∀ {p c : String},
        ((l.find? (fun pr => pr.2 == c)).map Prod.fst = some p ↔ (p, c) ∈ l)
  | [], _, p, c => by simp
  | hd :: tl, hnd, p, c => by
      by_cases hc : hd.2 = c
      · rw [List.find?_cons_of_pos tl
          (show (fun pr : String × String => pr.2 == c) hd = true from
            beq_iff_eq.mpr hc)]
        constructor
        · intro h
          have hfst : hd.1 = p := by simpa using h
          exact List.mem_cons.mpr (Or.inl (Prod.ext_iff.mpr
            ⟨hfst.symm, hc.symm⟩))
        · intro hm
          rcases List.mem_cons.mp hm with heq | hmem
          · have h1 : p = hd.1 := congrArg Prod.fst heq
            simp [h1]
          · exfalso
            have hcm : c ∈ tl.map Prod.snd := by
              rw [List.mem_map]
              exact ⟨(p, c), hmem, rfl⟩
            rw [List.map_cons, List.nodup_cons] at hnd
            exact hnd.1 (hc ▸ hcm)
      · rw [List.find?_cons_of_neg tl
          (show ¬(fun pr : String × String => pr.2 == c) hd = true from
            by simpa using hc)]
        rw [List.map_cons, List.nodup_cons] at hnd
        rw [find_snd_eq hnd.2]
        constructor
        · exact fun h => List.mem_cons_of_mem hd h
        · rintro hm
          rcases List.mem_cons.mp hm with heq | hmem
          · exact absurd (congrArg Prod.snd heq).symm hc
          · exact hmem

theorem parentOf_eq_some_iff (st : BuildState)
    (hnd : (st.pushes.map Prod.snd).Nodup) (p c : String) :
    parentOf st c = some p ↔ (p, c) ∈ st.pushes :=
  find_snd_eq hnd

theorem parentOf_eq_none_iff (st : BuildState) (c : String) :
    parentOf st c = none ↔ ∀ pr ∈ st.pushes, pr.2 ≠ c := by
  unfold parentOf
  rw [Option.map_eq_none']
  rw [List.find?_eq_none]
  constructor
  · intro h pr hm
    exact fun hx => by simpa [hx] using h pr hm
  · intro h pr hm
    simpa using h pr hm

theorem childrenOf_nodup (st : BuildState)
    (hnd : (st.pushes.map Prod.snd).Nodup) (pkey : String) :
    (childrenOf st pkey).Nodup := by
  unfold childrenOf
  exact List.Nodup.sublist
    (List.Sublist.map Prod.snd (List.filter_sublist st.pushes)) hnd

end TraceVis

namespace TraceVis

theorem mem_rootSpans_iff_parentless (hits : List ParsedHit) (mode : Mode)
    (hu : UniqueKeys hits mode) (ht : KeysTruthy hits mode)
    (hr : RefsResolvable hits mode) (hnm : NoMixedRefs hits mode)
    (x : String) :
    x ∈ (hitsToHierarchicalSpans hits mode).rootSpans ↔
      x ∈ spanMapKeys hits mode ∧
        ∀ pr ∈ (hitsToHierarchicalSpans hits mode).pushes, pr.2 ≠ x := by
  constructor
  · intro hx
    obtain ⟨hit, hm, rfl, hroot⟩ := (mem_rootSpans_iff hits mode x).mp hx
    refine ⟨List.mem_map_of_mem (hitKey mode) hm, ?_⟩
    intro pr hpr hpx
    rw [hitsToHierarchicalSpans_pushes, List.mem_flatMap] at hpr
    obtain ⟨hit2, hm2, hpr2⟩ := hpr
    have h2 := hitPushes_mem (spanMapKeys hits mode) mode hit2 pr hpr2
    have hkeq : hitKey mode hit2 = hitKey mode hit := by rw [← h2.2, hpx]
    have hhit : hit2 = hit :=
      List.inj_on_of_nodup_map hu hm2 hm hkeq
    subst hhit
    cases mode with
    | jaeger =>
        simp only [hitPushes, List.mem_flatMap] at hpr2
        obtain ⟨ref, hrefm, hrp⟩ := hpr2
        have hco : ref.refType = RefType.CHILD_OF := by
          unfold refPush at hrp
          split at hrp
          · rename_i hcond
            exact hcond.1
          · exact absurd hrp (List.not_mem_nil pr)
        rcases (isRootHit_jaeger_iff _ hit2).mp hroot with he | hff
        · rw [he] at hrefm
          exact absurd hrefm (List.not_mem_nil ref)
        · exact hnm rfl hit2 hm2 ⟨⟨ref, hrefm, hco⟩, hff⟩
    | data_prepper =>
        have hptr : parentTruthyResolvable (spanMapKeys hits .data_prepper)
            hit2._source := by
          by_contra hnptr
          simp only [hitPushes, if_neg hnptr] at hpr2
          exact absurd hpr2 (List.not_mem_nil pr)
        exact hroot.1 hptr
    | custom_data_prepper =>
        have hptr : parentTruthyResolvable
            (spanMapKeys hits .custom_data_prepper) hit2._source := by
          by_contra hnptr
          simp only [hitPushes, if_neg hnptr] at hpr2
          exact absurd hpr2 (List.not_mem_nil pr)
        exact hroot.1 hptr
  · rintro ⟨hxk, hnp⟩
    obtain ⟨hit, hm, hk⟩ := List.mem_map.mp hxk
    refine (mem_rootSpans_iff hits mode x).mpr ⟨hit, hm, hk.symm, ?_⟩
    cases mode with
    | jaeger =>
        rw [isRootHit_jaeger_iff]
        by_contra hni
        rw [not_or] at hni
        obtain ⟨hne, hnf⟩ := hni
        have hallco : ∀ ref ∈ hit._source.references.getD [],
            ref.refType = RefType.CHILD_OF := by
          intro ref hrefm
          cases hrt : ref.refType with
          | CHILD_OF => rfl
          | FOLLOWS_FROM => exact absurd ⟨ref, hrefm, hrt⟩ hnf
        cases hrefs : hit._source.references.getD [] with
        | nil => exact hne hrefs
        | cons r rs =>
            have hrm : r ∈ hit._source.references.getD [] := by
              rw [hrefs]
              exact List.mem_cons_self r rs
            have hco : r.refType = RefType.CHILD_OF := hallco r hrm
            have hres : r.spanID ∈ spanMapKeys hits .jaeger :=
              hr hit hm r hrm
            have hpush : (r.spanID, hitKey .jaeger hit) ∈
                (hitsToHierarchicalSpans hits .jaeger).pushes := by
              rw [hitsToHierarchicalSpans_pushes, List.mem_flatMap]
              refine ⟨hit, hm, ?_⟩
              simp only [hitPushes, List.mem_flatMap]
              refine ⟨r, hrm, ?_⟩
              unfold refPush
              rw [if_pos ⟨hco, hres⟩]
              exact List.mem_singleton.mpr rfl
            exact hnp _ hpush (by rw [hk])
    | data_prepper =>
        refine ⟨?_, ?_, hk ▸ hxk⟩
        · intro hptr
          have hpush : (hit._source.parentSpanId.getD "",
              hitKey .data_prepper hit) ∈
              (hitsToHierarchicalSpans hits .data_prepper).pushes := by
            rw [hitsToHierarchicalSpans_pushes, List.mem_flatMap]
            refine ⟨hit, hm, ?_⟩
            simp only [hitPushes, if_pos hptr, if_pos (hk ▸ hxk)]
            exact List.mem_singleton.mpr rfl
          exact hnp _ hpush (by rw [hk])
        · have := ht hit hm
          simpa [spanKeyField] using this
    | custom_data_prepper =>
        refine ⟨?_, ?_, hk ▸ hxk⟩
        · intro hptr
          have hpush : (hit._source.parentSpanId.getD "",
              hitKey .custom_data_prepper hit) ∈
              (hitsToHierarchicalSpans hits .custom_data_prepper).pushes := by
            rw [hitsToHierarchicalSpans_pushes, List.mem_flatMap]
            refine ⟨hit, hm, ?_⟩
            simp only [hitPushes, if_pos hptr, if_pos (hk ▸ hxk)]
            exact List.mem_singleton.mpr rfl
          exact hnp _ hpush (by rw [hk])
        · have := ht hit hm
          simpa [spanKeyField] using this

theorem forestAssumptions_build (hits : List ParsedHit) (mode : Mode)
    (hu : UniqueKeys hits mode) (ht : KeysTruthy hits mode)
    (hco : AtMostOneChildRef hits mode) (hnm : NoMixedRefs hits mode)
    (hr : RefsResolvable hits mode) (hct : ChainsTerminate hits mode) :
    ForestAssumptions (spanMapKeys hits mode)
      (parentOf (hitsToHierarchicalSpans hits mode))
      (childrenOf (hitsToHierarchicalSpans hits mode))
      (hitsToHierarchicalSpans hits mode).rootSpans hits.length := by
  have hnd := pushes_snd_nodup hits mode hu hco
  refine ⟨hu, ?_, ?_, ?_, ?_, rootSpans_nodup hits mode, fun x hx => hct x hx⟩
  · intro p c
    exact (mem_childrenOf _ p c).trans
      (parentOf_eq_some_iff _ hnd p c).symm
  · intro c p h
    have hmem := (parentOf_eq_some_iff _ hnd p c).mp h
    have := mem_pushes_keys hits mode (p, c) hmem
    exact ⟨this.2, this.1⟩
  · exact childrenOf_nodup _ hnd
  · intro r
    rw [mem_rootSpans_iff_parentless hits mode hu ht hr hnm r,
      parentOf_eq_none_iff]

theorem visitForest_perm_spanMapKeys (hits : List ParsedHit) (mode : Mode)
    (hu : UniqueKeys hits mode) (ht : KeysTruthy hits mode)
    (hco : AtMostOneChildRef hits mode) (hnm : NoMixedRefs hits mode)
    (hr : RefsResolvable hits mode) (hct : ChainsTerminate hits mode) :
    (visitForest (envOf hits mode) (hits.length + 1)
      (hitsToHierarchicalSpans hits mode).rootSpans).Perm
      (spanMapKeys hits mode) :=
  (forestAssumptions_build hits mode hu ht hco hnm hr hct).visitForest_perm_keys
    (envOf hits mode) (fun _ => rfl)

end TraceVis

namespace TraceVis

/-- A list contains u strictly before v. -/
def SplitPair {α : Type} (L : List α) (u v : α) : Prop :=
  ∃ l1 l2 l3, L = l1 ++ (u :: l2) ++ (v :: l3)

theorem SplitPair.in_context {α : Type} {L : List α} {u v : α}
    (A B : List α) (h : SplitPair L u v) : SplitPair (A ++ L ++ B) u v := by
  obtain ⟨l1, l2, l3, rfl⟩ := h
  exact ⟨A ++ l1, l2, l3 ++ B, by simp [List.append_assoc]⟩

theorem SplitPair.cons {α : Type} {L : List α} {u v : α} (x : α)
    (h : SplitPair L u v) : SplitPair (x :: L) u v := by
  have := h.in_context [x] []
  simpa using this

theorem SplitPair.map {α β : Type} {L : List α} {u v : α} (f : α → β)
    (h : SplitPair L u v) : SplitPair (L.map f) (f u) (f v) := by
  obtain ⟨l1, l2, l3, rfl⟩ := h
  exact ⟨l1.map f, l2.map f, l3.map f, by simp⟩

theorem splitPair_of_head_mem {α : Type} {u v : α} {tail : List α}
    (hv : v ∈ tail) : SplitPair (u :: tail) u v := by
  obtain ⟨s, t, rfl⟩ := List.append_of_mem hv
  exact ⟨[], s, t, by simp⟩

theorem splitPair_of_parts {α : Type} (u v : α) (A tu B tv C : List α) :
    SplitPair (A ++ (u :: tu) ++ B ++ (v :: tv) ++ C) u v :=
  ⟨A, tu ++ B, tv ++ C, by simp [List.append_assoc]⟩

theorem flatMap_mem_split {α β : Type} {l : List α} {c : α} (hc : c ∈ l)
    (f : α → List β) :
    ∃ A B, l.flatMap f = A ++ f c ++ B := by
  obtain ⟨s, t, rfl⟩ := List.append_of_mem hc
  exact ⟨s.flatMap f, t.flatMap f, by simp [List.append_assoc]⟩

theorem pairwise_split {α : Type} {R : α → α → Prop} {c c' : α} :
    ∀ {l : List α}, l.Pairwise R → c ∈ l → c' ∈ l → c ≠ c' → ¬R c' c →
      SplitPair l c c'
  | [], _, hc, _, _, _ => absurd hc (List.not_mem_nil c)
  | x :: xs, hp, hc, hc', hne, hnR => by
      rcases List.mem_cons.mp hc with rfl | hcx
      · have hv : c' ∈ xs := by
          rcases List.mem_cons.mp hc' with rfl | h
          · exact absurd rfl hne
          · exact h
        exact splitPair_of_head_mem hv
      · rcases List.mem_cons.mp hc' with rfl | hcx'
        · exact absurd ((List.pairwise_cons.mp hp).1 c hcx) hnR
        · exact SplitPair.cons x (pairwise_split
            (List.pairwise_cons.mp hp).2 hcx hcx' hne hnR)

theorem sortByStart_pairwise (start : String → ℚ) (l : List String) :
    (sortByStart start l).Pairwise (fun a b => start a ≤ start b) := by
  have h := @List.sorted_mergeSort String
    (fun a b => decide (start a ≤ start b))
    (fun a b c hab hbc => by
      rw [decide_eq_true_eq] at *
      exact le_trans hab hbc)
    (fun a b => by
      rcases le_total (start a) (start b) with h | h <;> simp [h])
    l
  exact h.imp (fun h2 => of_decide_eq_true h2)

namespace ForestAssumptions

variable {keys : List String} {po : String → Option String}
variable {ch : String → List String} {roots : List String} {N : ℕ}

theorem q_child {fuel : ℕ} {a c : String}
    (hq : ∀ x ∈ keys, ∀ n, iterParent po n x = some a → n < fuel + 1)
    (hpc : po c = some a) :
    ∀ x ∈ keys, ∀ n, iterParent po n x = some c → n < fuel := by
  intro x hx n hn
  have := hq x hx (n + 1) (reach_step hpc hn)
  omega

theorem q_top (FA : ForestAssumptions keys po ch roots N) (a : String) :
    ∀ x ∈ keys, ∀ n, iterParent po n x = some a → n < N + 1 := by
  intro x hx n hn
  have := lt_of_iterParent_some po hn (FA.term x hx)
  omega

theorem fuel_pos {fuel : ℕ} {a : String} (ha : a ∈ keys)
    (hq : ∀ x ∈ keys, ∀ n, iterParent po n x = some a → n < fuel) :
    1 ≤ fuel := by
  by_contra h
  have hf : fuel = 0 := by omega
  subst hf
  exact absurd (hq a ha 0 rfl) (Nat.not_lt_zero 0)

theorem visit_head (env : SpanEnv) {fuel : ℕ} {a : String}
    (hfuel : 1 ≤ fuel) :
    ∃ tail, visitIds env fuel a = a :: tail := by
  cases fuel with
  | zero => omega
  | succ n => exact ⟨_, rfl⟩

theorem strict_desc_ne (FA : ForestAssumptions keys po ch roots N)
    {p d : String} {k : ℕ} (h : iterParent po (k + 1) d = some p)
    (hd : d ∈ keys) : d ≠ p := by
  rintro rfl
  exact FA.no_loop hd (Nat.le_add_left 1 k) h

theorem iter_snd_mem_keys (FA : ForestAssumptions keys po ch roots N)
    {d p : String} {k : ℕ} (h : iterParent po (k + 1) d = some p) :
    p ∈ keys := by
  rw [iterParent_succ_right po k d] at h
  obtain ⟨c, _, hc2⟩ := Option.bind_eq_some.mp h
  exact (FA.po_keys c p hc2).2

theorem subtree_split (FA : ForestAssumptions keys po ch roots N)
    (env : SpanEnv) (henv : ∀ id, env.children id = ch id) :
    ∀ (fuel : ℕ) (a : String), a ∈ keys →
      (∀ x ∈ keys, ∀ n, iterParent po n x = some a → n < fuel) →
      ∀ {p d : String} {k : ℕ}, reachesIn po N a p →
        iterParent po (k + 1) d = some p → d ∈ keys →
        SplitPair (visitIds env fuel a) p d
  | 0, a, ha, hq, p, d, k, _, _, _ =>
      absurd (hq a ha 0 rfl) (Nat.not_lt_zero 0)
  | fuel + 1, a, ha, hq, p, d, k, hreach, hiter, hd => by
      by_cases hpa : p = a
      · subst hpa
        have hdd : d ∈ descList keys po N p := by
          rw [descList, List.mem_filter]
          refine ⟨hd, decide_eq_true ?_⟩
          have hlt : k + 1 < N :=
            lt_of_iterParent_some po hiter (FA.term d hd)
          exact ⟨k + 1, Nat.le_of_lt hlt, hiter⟩
        have hdv : d ∈ visitIds env (fuel + 1) p :=
          (FA.visit_perm env henv (fuel + 1) p ha hq).mem_iff.mpr hdd
        have hdne := FA.strict_desc_ne hiter hd
        rcases List.mem_cons.mp hdv with heq | htail
        · exact absurd heq hdne
        · exact splitPair_of_head_mem htail
      · obtain ⟨n, hnN, hit⟩ := hreach
        cases n with
        | zero => exact absurd (Option.some.inj hit) hpa
        | succ m =>
            rw [iterParent_succ_right po m p] at hit
            obtain ⟨c, hc1, hc2⟩ := Option.bind_eq_some.mp hit
            have hcch : c ∈ ch a := (FA.mem_ch_iff a c).mpr hc2
            have hck : c ∈ keys := (FA.po_keys c a hc2).1
            have hih := subtree_split FA env henv fuel c hck
              (q_child hq hc2)
              ⟨m, le_trans (Nat.le_succ m) hnN, hc1⟩ hiter hd
            have hcm : c ∈ sortByStart env.startNanos (env.children a) := by
              rw [sortByStart, List.mem_mergeSort, henv a]
              exact hcch
            obtain ⟨A, B, hAB⟩ := flatMap_mem_split hcm (visitIds env fuel)
            have : visitIds env (fuel + 1) a =
                a :: (A ++ visitIds env fuel c ++ B) := by
              show a :: _ = _
              rw [hAB]
            rw [this]
            exact SplitPair.cons a (hih.in_context A B)

theorem sibling_split (FA : ForestAssumptions keys po ch roots N)
    (env : SpanEnv) (henv : ∀ id, env.children id = ch id) :
    ∀ (fuel : ℕ) (a : String), a ∈ keys →
      (∀ x ∈ keys, ∀ n, iterParent po n x = some a → n < fuel) →
      ∀ {q c c' : String}, reachesIn po N a q →
        c ∈ ch q → c' ∈ ch q →
        env.startNanos c < env.startNanos c' →
        SplitPair (visitIds env fuel a) c c'
  | 0, a, ha, hq, q, c, c', _, _, _, _ =>
      absurd (hq a ha 0 rfl) (Nat.not_lt_zero 0)
  | fuel + 1, a, ha, hq, q, c, c', hreach, hc, hc', hlt => by
      by_cases hqa : q = a
      · subst hqa
        have hpc : po c = some q := (FA.mem_ch_iff q c).mp hc
        have hpc' : po c' = some q := (FA.mem_ch_iff q c').mp hc'
        have hck : c ∈ keys := (FA.po_keys c q hpc).1
        have hck' : c' ∈ keys := (FA.po_keys c' q hpc').1
        have hcm : c ∈ sortByStart env.startNanos (env.children q) := by
          rw [sortByStart, List.mem_mergeSort, henv q]
          exact hc
        have hcm' : c' ∈ sortByStart env.startNanos (env.children q) := by
          rw [sortByStart, List.mem_mergeSort, henv q]
          exact hc'
        have hne : c ≠ c' := by
          rintro rfl
          exact absurd hlt (lt_irrefl _)
        have hsp := pairwise_split (sortByStart_pairwise env.startNanos
          (env.children q)) hcm hcm' hne (fun hle => absurd hlt
            (not_lt_of_le hle))
        obtain ⟨s1, s2, s3, hsorted⟩ := hsp
        have hqc : ∀ x ∈ keys, ∀ n,
            iterParent po n x = some c → n < fuel := q_child hq hpc
        have hqc' : ∀ x ∈ keys, ∀ n,
            iterParent po n x = some c' → n < fuel := q_child hq hpc'
        obtain ⟨tc, htc⟩ := visit_head env (fuel_pos hck hqc) (a := c)
        obtain ⟨tc', htc'⟩ := visit_head env (fuel_pos hck' hqc') (a := c')
        have hv : visitIds env (fuel + 1) q =
            q :: ((s1 ++ (c :: s2) ++ (c' :: s3)).flatMap
              (visitIds env fuel)) := by
          show q :: _ = _
          rw [hsorted]
        rw [hv, List.flatMap_append, List.flatMap_append,
          List.flatMap_cons, List.flatMap_cons, htc, htc']
        refine SplitPair.cons q ?_
        have hshape : s1.flatMap (visitIds env fuel) ++
            ((c :: tc) ++ s2.flatMap (visitIds env fuel)) ++
            ((c' :: tc') ++ s3.flatMap (visitIds env fuel)) =
            s1.flatMap (visitIds env fuel) ++ (c :: tc) ++
              s2.flatMap (visitIds env fuel) ++ (c' :: tc') ++
              s3.flatMap (visitIds env fuel) := by
          simp [List.append_assoc]
        rw [hshape]
        exact splitPair_of_parts c c' _ tc _ tc' _
      · obtain ⟨n, hnN, hit⟩ := hreach
        cases n with
        | zero => exact absurd (Option.some.inj hit) hqa
        | succ m =>
            rw [iterParent_succ_right po m q] at hit
            obtain ⟨c0, hc1, hc2⟩ := Option.bind_eq_some.mp hit
            have hck : c0 ∈ keys := (FA.po_keys c0 a hc2).1
            have hih := sibling_split FA env henv fuel c0 hck
              (q_child hq hc2)
              ⟨m, le_trans (Nat.le_succ m) hnN, hc1⟩ hc hc' hlt
            have hcm : c0 ∈ sortByStart env.startNanos (env.children a) := by
              rw [sortByStart, List.mem_mergeSort, henv a]
              exact (FA.mem_ch_iff a c0).mpr hc2
            obtain ⟨A, B, hAB⟩ := flatMap_mem_split hcm (visitIds env fuel)
            have hva : visitIds env (fuel + 1) a =
                a :: (A ++ visitIds env fuel c0 ++ B) := by
              show a :: _ = _
              rw [hAB]
            rw [hva]
            exact SplitPair.cons a (hih.in_context A B)

theorem forest_subtree_split (FA : ForestAssumptions keys po ch roots N)
    (env : SpanEnv) (henv : ∀ id, env.children id = ch id)
    {p d : String} {k : ℕ} (hiter : iterParent po (k + 1) d = some p)
    (hd : d ∈ keys) :
    SplitPair (visitForest env (N + 1) roots) p d := by
  have hp : p ∈ keys := FA.iter_snd_mem_keys hiter
  obtain ⟨r, hr, hreach⟩ :=
    FA.exists_root_reach N p hp (FA.term p hp)
  have hrm : r ∈ sortByStart env.startNanos roots := by
    rw [sortByStart, List.mem_mergeSort]
    exact hr
  obtain ⟨A, B, hAB⟩ := flatMap_mem_split hrm (visitIds env (N + 1))
  have hsub := FA.subtree_split env henv (N + 1) r
    ((FA.roots_iff r).mp hr).1 (FA.q_top r) hreach hiter hd
  rw [visitForest, hAB]
  exact hsub.in_context A B

theorem forest_sibling_split (FA : ForestAssumptions keys po ch roots N)
    (env : SpanEnv) (henv : ∀ id, env.children id = ch id)
    {q c c' : String} (hc : c ∈ ch q) (hc' : c' ∈ ch q)
    (hlt : env.startNanos c < env.startNanos c') :
    SplitPair (visitForest env (N + 1) roots) c c' := by
  have hqk : q ∈ keys := (FA.po_keys c q ((FA.mem_ch_iff q c).mp hc)).2
  obtain ⟨r, hr, hreach⟩ :=
    FA.exists_root_reach N q hqk (FA.term q hqk)
  have hrm : r ∈ sortByStart env.startNanos roots := by
    rw [sortByStart, List.mem_mergeSort]
    exact hr
  obtain ⟨A, B, hAB⟩ := flatMap_mem_split hrm (visitIds env (N + 1))
  have hsub := FA.sibling_split env henv (N + 1) r
    ((FA.roots_iff r).mp hr).1 (FA.q_top r) hreach hc hc' hlt
  rw [visitForest, hAB]
  exact hsub.in_context A B

end ForestAssumptions

end TraceVis

namespace TraceVis

theorem nodeHit_mem_key (hits : List ParsedHit) (mode : Mode) (id : String)
    (h : id ∈ spanMapKeys hits mode) :
    ∃ hit ∈ hits, nodeHit hits mode id = some hit ∧ hitKey mode hit = id := by
  obtain ⟨hit0, hm0, hk0⟩ := List.mem_map.mp h
  have hmf : hit0 ∈ hits.filter (fun h2 => hitKey mode h2 == id) :=
    List.mem_filter.mpr ⟨hm0, beq_iff_eq.mpr hk0⟩
  have hne : hits.filter (fun h2 => hitKey mode h2 == id) ≠ [] :=
    List.ne_nil_of_mem hmf
  have hlast := List.getLast?_eq_getLast _ hne
  set l := hits.filter (fun h2 => hitKey mode h2 == id) with hl
  have hmem := List.getLast_mem hne
  have hprops := List.mem_filter.mp hmem
  exact ⟨l.getLast hne, hprops.1, hlast, beq_iff_eq.mp hprops.2⟩

theorem spanKeyField_truthy_eq (mode : Mode) (src : Source)
    (h : (spanKeyField mode src).getD "" ≠ "") :
    spanKeyField mode src = some (jsKey (spanKeyField mode src)) := by
  cases hk : spanKeyField mode src with
  | none =>
      rw [hk] at h
      exact absurd rfl h
  | some s => rfl

theorem nodeSource_spanKeyField (hits : List ParsedHit) (mode : Mode)
    (id : String) (hk : id ∈ spanMapKeys hits mode)
    (ht : KeysTruthy hits mode) :
    spanKeyField mode (nodeSource hits mode id) = some id := by
  obtain ⟨hit, hm, hnh, hkey⟩ := nodeHit_mem_key hits mode id hk
  have hsrc : nodeSource hits mode id = hit._source := by
    rw [nodeSource, hnh]
    rfl
  rw [hsrc]
  have := spanKeyField_truthy_eq mode hit._source (ht hit hm)
  rw [this]
  unfold hitKey at hkey
  rw [hkey]

theorem nodeStartNanos_eq (hits : List ParsedHit) (mode : Mode)
    (id : String) {hit : ParsedHit}
    (hnh : nodeHit hits mode id = some hit) :
    nodeStartNanos hits mode id = getStartTimeInNanos hit mode := by
  rw [nodeStartNanos, hnh]
  rfl

theorem nodeSource_eq (hits : List ParsedHit) (mode : Mode) (id : String)
    {hit : ParsedHit} (hnh : nodeHit hits mode id = some hit) :
    nodeSource hits mode id = hit._source := by
  rw [nodeSource, hnh]
  rfl

theorem mkBar_spanId (env : SpanEnv) (mode : Mode) (s : ℚ) (id : String) :
    (mkBar env mode s id).spanId = spanKeyField mode (env.source id) := rfl

theorem mkBar_y (env : SpanEnv) (mode : Mode) (s : ℚ) (id : String) :
    (mkBar env mode s id).y = spanKeyField mode (env.source id) := rfl

theorem mkBar_base (env : SpanEnv) (mode : Mode) (s : ℚ) (id : String) :
    (mkBar env mode s id).base =
      nanoToMilliSec (env.startNanos id) - s := rfl

theorem mkBar_x (env : SpanEnv) (mode : Mode) (s : ℚ) (id : String) :
    (mkBar env mode s id).x =
      (parseSpanHitDataTotal ⟨env.source id⟩ mode).durationInMs := rfl

theorem mkAnn_x (env : SpanEnv) (mode : Mode) (s : ℚ) (id : String) :
    (mkAnn env mode s id).x = (mkBar env mode s id).base := rfl

theorem mkAnn_y (env : SpanEnv) (mode : Mode) (s : ℚ) (id : String) :
    (mkAnn env mode s id).y = (mkBar env mode s id).y := rfl

theorem endOf_eq_bar (env : SpanEnv) (mode : Mode) (s : ℚ) (id : String) :
    endOf env mode s id =
      (mkBar env mode s id).base + (mkBar env mode s id).x := rfl

theorem buildChartModel_ok_eq (hits : List ParsedHit) (mode : Mode)
    (g : GanttData) (h : buildChartModel hits mode = .ok g) :
    g.data = (visitForest (envOf hits mode) (hits.length + 1)
      (hitsToHierarchicalSpans hits mode).rootSpans).map
        (mkBar (envOf hits mode) mode (minRootStartMs hits mode)) ∧
    g.annotations = (visitForest (envOf hits mode) (hits.length + 1)
      (hitsToHierarchicalSpans hits mode).rootSpans).map
        (mkAnn (envOf hits mode) mode (minRootStartMs hits mode)) ∧
    g.maxX = (visitForest (envOf hits mode) (hits.length + 1)
      (hitsToHierarchicalSpans hits mode).rootSpans).foldl
        (fun m id => max m (endOf (envOf hits mode) mode
          (minRootStartMs hits mode) id)) 0 :=
  createPlotlyData_ok_eq (envOf hits mode) mode (minRootStartMs hits mode)
    (hits.length + 1) (hitsToHierarchicalSpans hits mode).rootSpans g h

theorem buildChartModel_isOk (hits : List ParsedHit) (mode : Mode)
    (hp : ProcessPresent hits mode) :
    ∃ g, buildChartModel hits mode = .ok g := by
  unfold buildChartModel createPlotlyData
  rw [if_neg ?_]
  · exact ⟨_, rfl⟩
  · intro hany
    rw [List.any_eq_true] at hany
    obtain ⟨id, hid, hcond⟩ := hany
    rw [Bool.and_eq_true] at hcond
    have hmode : mode = Mode.jaeger := by
      have := hcond.1
      rwa [beq_iff_eq] at this
    have hidk := visitForest_subset_keys hits mode (hits.length + 1) id hid
    obtain ⟨hit, hm, hnh, _⟩ := nodeHit_mem_key hits mode id hidk
    have hsome := hp hmode hit hm
    have hsrc : (envOf hits mode).source id = hit._source :=
      nodeSource_eq hits mode id hnh
    rw [hsrc] at hcond
    rw [Option.isNone_iff_eq_none] at hcond
    rw [hcond.2] at hsome
    exact Bool.noConfusion hsome

theorem foldl_max_le_init {l : List ℚ} :
    ∀ {a : ℚ}, a ≤ l.foldl max a := by
  induction l with
  | nil => intro a; exact le_refl a
  | cons x xs ih =>
      intro a
      exact le_trans (le_max_left a x) ih

theorem foldl_max_le_mem {l : List ℚ} {x : ℚ} (hx : x ∈ l) :
    ∀ {a : ℚ}, x ≤ l.foldl max a := by
  induction l with
  | nil => exact absurd hx (List.not_mem_nil x)
  | cons y ys ih =>
      intro a
      rcases List.mem_cons.mp hx with rfl | hm
      · exact le_trans (le_max_right a x) foldl_max_le_init
      · exact ih hm

theorem foldl_max_cases {l : List ℚ} :
    ∀ {a : ℚ}, l.foldl max a = a ∨ l.foldl max a ∈ l := by
  induction l with
  | nil => intro a; exact Or.inl rfl
  | cons x xs ih =>
      intro a
      rcases @ih (max a x) with heq | hmem
      · rw [List.foldl_cons]
        rcases max_cases a x with ⟨hmax, _⟩ | ⟨hmax, _⟩
        · exact Or.inl (by rw [heq, hmax])
        · exact Or.inr (by rw [heq, hmax]; exact List.mem_cons_self x xs)
      · exact Or.inr (List.mem_cons_of_mem x hmem)

end TraceVis

namespace TraceVis

theorem count_flatMap {α β : Type} [DecidableEq β] (f : α → List β)
    (c : β) :
    ∀ (l : List α), (l.flatMap f).count c =
      (l.map (fun a => (f a).count c)).sum
  | [] => by simp
  | x :: xs => by
      rw [List.flatMap_cons, List.count_append, List.map_cons,
        List.sum_cons, count_flatMap f c xs]

namespace ForestAssumptions

variable {keys : List String} {po : String → Option String}
variable {ch : String → List String} {roots : List String} {N : ℕ}

theorem forest_roots_split (FA : ForestAssumptions keys po ch roots N)
    (env : SpanEnv) (henv : ∀ id, env.children id = ch id)
    {r r' : String} (hr : r ∈ roots) (hr' : r' ∈ roots)
    (hlt : env.startNanos r < env.startNanos r') :
    SplitPair (visitForest env (N + 1) roots) r r' := by
  have hrm : r ∈ sortByStart env.startNanos roots := by
    rw [sortByStart, List.mem_mergeSort]; exact hr
  have hrm' : r' ∈ sortByStart env.startNanos roots := by
    rw [sortByStart, List.mem_mergeSort]; exact hr'
  have hne : r ≠ r' := by
    rintro rfl
    exact absurd hlt (lt_irrefl _)
  have hsp := pairwise_split (sortByStart_pairwise env.startNanos roots)
    hrm hrm' hne (fun hle => absurd hlt (not_lt_of_le hle))
  obtain ⟨s1, s2, s3, hsorted⟩ := hsp
  obtain ⟨tr, htr⟩ := visit_head env
    (show (1 : ℕ) ≤ N + 1 by omega) (a := r)
  obtain ⟨tr', htr'⟩ := visit_head env
    (show (1 : ℕ) ≤ N + 1 by omega) (a := r')
  rw [visitForest, hsorted, List.flatMap_append, List.flatMap_append,
    List.flatMap_cons, List.flatMap_cons, htr, htr']
  have hshape : s1.flatMap (visitIds env (N + 1)) ++
      ((r :: tr) ++ s2.flatMap (visitIds env (N + 1))) ++
      ((r' :: tr') ++ s3.flatMap (visitIds env (N + 1))) =
      s1.flatMap (visitIds env (N + 1)) ++ (r :: tr) ++
        s2.flatMap (visitIds env (N + 1)) ++ (r' :: tr') ++
        s3.flatMap (visitIds env (N + 1)) := by
    simp [List.append_assoc]
  rw [hshape]
  exact splitPair_of_parts r r' _ tr _ tr' _

end ForestAssumptions

theorem visited_map_spanId (hits : List ParsedHit) (mode : Mode) (s : ℚ)
    (ht : KeysTruthy hits mode) (ids : List String)
    (hsub : ∀ id ∈ ids, id ∈ spanMapKeys hits mode) :
    ids.map (fun id => (mkBar (envOf hits mode) mode s id).spanId) =
      ids.map (fun id => some id) := by
  apply List.map_congr_left
  intro id hid
  rw [mkBar_spanId]
  exact nodeSource_spanKeyField hits mode id (hsub id hid) ht

theorem keys_map_some (hits : List ParsedHit) (mode : Mode)
    (ht : KeysTruthy hits mode) :
    hits.map (fun hit => spanKeyField mode hit._source) =
      (spanMapKeys hits mode).map (fun k => some k) := by
  rw [spanMapKeys, List.map_map]
  apply List.map_congr_left
  intro hit hm
  exact spanKeyField_truthy_eq mode hit._source (ht hit hm)

end TraceVis

namespace TraceVis

/-- Example hit set for C2: span C carries two resolvable CHILD_OF
references. -/
def c2hits : List ParsedHit :=
  [⟨{ spanID := some "A", process := some ⟨some "s"⟩ }⟩,
   ⟨{ spanID := some "B", startTime := 1, process := some ⟨some "s"⟩ }⟩,
   ⟨{ spanID := some "C", startTime := 2, process := some ⟨some "s"⟩,
      references := some [⟨.CHILD_OF, "A"⟩, ⟨.CHILD_OF, "B"⟩] }⟩]

/-- C2 counterexample: with two resolvable CHILD_OF references, span C is
stored as a child of both A and B, so a node can be a child of more than
one parent and the first structural assignment does not win. -/
theorem c2_counterexample :
    "C" ∈ childrenOf (hitsToHierarchicalSpans c2hits Mode.jaeger) "A" ∧
      "C" ∈ childrenOf (hitsToHierarchicalSpans c2hits Mode.jaeger) "B" ∧
      ((hitsToHierarchicalSpans c2hits Mode.jaeger).pushes.map
        Prod.snd).count "C" = 2 := by
  decide

/-- C2 amended: every resolvable CHILD_OF reference (jaeger) and every
truthy resolvable parentSpanId (data prepper) appends the span to the
children array of its target, with no deduplication: the number of
occurrences of a span key among all children arrays equals the sum over
the hits of the push events that hit generates. -/
theorem c2_children_multiplicity (hits : List ParsedHit) (mode : Mode)
    (c : String) :
    ((hitsToHierarchicalSpans hits mode).pushes.map Prod.snd).count c =
      (hits.map (fun hit =>
        ((hitPushes (spanMapKeys hits mode) mode hit).map
          Prod.snd).count c)).sum := by
  rw [hitsToHierarchicalSpans_pushes, List.map_flatMap]
  exact count_flatMap _ c hits

/-- C3 counterexample: a jaeger hit with no process field makes
parseSpanHitData throw instead of yielding undefined. -/
theorem c3_counterexample :
    parseSpanHitData ⟨{ spanID := some "Z" }⟩ Mode.jaeger = .error () := rfl

/-- C3 amended: parseSpanHitData never raises except in jaeger mode on a
hit whose _source lacks the process field, where the unguarded
dereference of the process object throws; in every other case missing
fields only produce undefined or empty values. -/
theorem c3_parser_error_iff (span : ParsedHit) (mode : Mode) :
    parseSpanHitData span mode = .error () ↔
      mode = .jaeger ∧ span._source.process = none := by
  unfold parseSpanHitData
  split
  · rename_i hcond
    simp [hcond]
  · rename_i hcond
    simp [hcond]

/-- Example hit for C4: a jaeger span of 1234 microseconds. -/
def c4hits : List ParsedHit :=
  [⟨{ spanID := some "D", duration := 1234, process := some ⟨some "s"⟩ }⟩]

unseal Rat.mul Rat.inv Rat.add Rat.sub Nat.gcd List.merge List.mergeSort in
/-- C4 counterexample: the bar length used in layout math is the value
rounded to two decimals at parse time (1.23), not the unrounded unit
conversion of the raw duration (1.234). -/
theorem c4_counterexample :
    (buildChartModel c4hits Mode.jaeger).map
      (fun g => g.data.map SpanBar.x) = .ok [(123 : ℚ) / 100] ∧
    (123 : ℚ) / 100 ≠ microToMilliSec 1234 ∧
    (buildChartModel c4hits Mode.jaeger).map (fun g => g.maxX) =
      .ok ((123 : ℚ) / 100) := by
  refine ⟨by decide, by decide, by decide⟩

/-- C4 amended: the two-decimal rounding is applied to durationInMs inside
parseSpanHitData, and that rounded value is what feeds the layout
arithmetic (the bar length and hence the running maximum), while the bar
base (offset) is the unrounded conversion of the start time minus the base
time. -/
theorem c4_duration_rounded_offset_unrounded (hits : List ParsedHit)
    (mode : Mode) (g : GanttData) (h : buildChartModel hits mode = .ok g) :
    ∀ b ∈ g.data, ∃ hit ∈ hits,
      b.x = (if mode = .jaeger then
          jsRound2 (microToMilliSec hit._source.duration)
        else jsRound2 (nanoToMilliSec hit._source.durationInNanos)) ∧
      b.base = nanoToMilliSec (getStartTimeInNanos hit mode) -
        minRootStartMs hits mode := by
  obtain ⟨hdata, _, _⟩ := buildChartModel_ok_eq hits mode g h
  intro b hb
  rw [hdata, List.mem_map] at hb
  obtain ⟨id, hid, rfl⟩ := hb
  have hidk := visitForest_subset_keys hits mode (hits.length + 1) id hid
  obtain ⟨hit, hm, hnh, _⟩ := nodeHit_mem_key hits mode id hidk
  refine ⟨hit, hm, ?_, ?_⟩
  · rw [mkBar_x]
    show (parseSpanHitDataTotal ⟨nodeSource hits mode id⟩ mode).durationInMs = _
    rw [nodeSource_eq hits mode id hnh]
    rfl
  · rw [mkBar_base]
    show nanoToMilliSec (nodeStartNanos hits mode id) - _ = _
    rw [nodeStartNanos_eq hits mode id hnh]

/-- Example hit set for C5: the child starts before its root parent, so
the minimum over root spans differs from the global minimum. -/
def c5hits : List ParsedHit :=
  [⟨{ spanID := some "R", startTime := 2000, duration := 3000,
      process := some ⟨some "s"⟩ }⟩,
   ⟨{ spanID := some "C", startTime := 1000, duration := 1000,
      process := some ⟨some "s"⟩,
      references := some [⟨.CHILD_OF, "R"⟩] }⟩]

unseal Rat.mul Rat.inv Rat.add Rat.sub Nat.gcd List.merge List.mergeSort in
/-- C5 counterexample: the child bar C gets offset -1 ms, while the
formula of the claim (start minus the global minimum over all spans)
predicts 0 ms: the pipeline subtracts the minimum over the root spans,
not over the whole dataset. -/
theorem c5_counterexample :
    (buildChartModel c5hits Mode.jaeger).map
      (fun g => g.data.map (fun b => (b.spanId, b.base))) =
      .ok [(some "R", 0), (some "C", -1)] ∧
    nanoToMilliSec (getStartTimeInNanos c5hits[1] Mode.jaeger) -
      specGlobalMinStartMs c5hits Mode.jaeger = 0 ∧
    (-1 : ℚ) ≠ 0 := by
  refine ⟨by decide, by decide, by decide⟩

/-- C5 amended: every emitted bar has offset equal to the unrounded
conversion of its span start time minus the minimum start time over the
root spans only (the value SpanDetailPanel computes and passes to
createPlotlyData), not the minimum over all spans. -/
theorem c5_offset_root_min (hits : List ParsedHit) (mode : Mode)
    (g : GanttData) (h : buildChartModel hits mode = .ok g) :
    ∀ b ∈ g.data, ∃ hit ∈ hits,
      b.spanId = spanKeyField mode hit._source ∧
      b.base = nanoToMilliSec (getStartTimeInNanos hit mode) -
        minRootStartMs hits mode := by
  obtain ⟨hdata, _, _⟩ := buildChartModel_ok_eq hits mode g h
  intro b hb
  rw [hdata, List.mem_map] at hb
  obtain ⟨id, hid, rfl⟩ := hb
  have hidk := visitForest_subset_keys hits mode (hits.length + 1) id hid
  obtain ⟨hit, hm, hnh, _⟩ := nodeHit_mem_key hits mode id hidk
  refine ⟨hit, hm, ?_, ?_⟩
  · rw [mkBar_spanId]
    show spanKeyField mode (nodeSource hits mode id) = _
    rw [nodeSource_eq hits mode id hnh]
  · rw [mkBar_base]
    show nanoToMilliSec (nodeStartNanos hits mode id) - _ = _
    rw [nodeStartNanos_eq hits mode id hnh]

unseal Rat.mul Rat.inv Rat.add Rat.sub Nat.gcd List.merge List.mergeSort in
/-- C9: an empty hit list yields an empty root list and an empty chart
model with maxX zero, in every mode, with no error. -/
theorem c9_empty_input (mode : Mode) :
    (hitsToHierarchicalSpans [] mode).rootSpans = [] ∧
      buildChartModel [] mode = .ok ⟨[], [], 0⟩ := by
  cases mode <;> exact ⟨rfl, by decide⟩

end TraceVis

namespace TraceVis

/-- C7: for every successful chart model whose bar list contains a bar with
nonnegative end (as every real trace does: the root bar of the earliest
root has end at least its duration), maxX is attained by some emitted bar
at base + x, bounds every bar end from above, and the Reset-zoom full range
is exactly (0, maxX * 1.1). -/
theorem c7_maxX_and_reset_range (hits : List ParsedHit) (mode : Mode)
    (g : GanttData) (h : buildChartModel hits mode = .ok g)
    (hpos : ∃ b ∈ g.data, 0 ≤ b.base + b.x) :
    (∃ b ∈ g.data, g.maxX = b.base + b.x) ∧
    (∀ b ∈ g.data, b.base + b.x ≤ g.maxX) ∧
    fullRange g.maxX = (0, g.maxX * (11 / 10)) := by
  obtain ⟨hdata, _, hmax⟩ := buildChartModel_ok_eq hits mode g h
  have hm2 : g.maxX = ((visitForest (envOf hits mode) (hits.length + 1)
      (hitsToHierarchicalSpans hits mode).rootSpans).map
        (endOf (envOf hits mode) mode (minRootStartMs hits mode))).foldl
      max 0 := by
    rw [hmax, List.foldl_map]
  have hub : ∀ b ∈ g.data, b.base + b.x ≤ g.maxX := by
    intro b hb
    rw [hdata, List.mem_map] at hb
    obtain ⟨id, hid, rfl⟩ := hb
    rw [← endOf_eq_bar, hm2]
    exact foldl_max_le_mem (List.mem_map_of_mem _ hid)
  refine ⟨?_, hub, rfl⟩
  rcases foldl_max_cases (l := (visitForest (envOf hits mode)
      (hits.length + 1) (hitsToHierarchicalSpans hits mode).rootSpans).map
        (endOf (envOf hits mode) mode (minRootStartMs hits mode)))
      (a := 0) with h0 | hmem
  · obtain ⟨b0, hb0, hge⟩ := hpos
    have hzero : g.maxX = 0 := by rw [hm2, h0]
    have hle := hub b0 hb0
    rw [hzero] at hle
    have hend : b0.base + b0.x = 0 := le_antisymm hle hge
    exact ⟨b0, hb0, by rw [hzero, hend]⟩
  · rw [List.mem_map] at hmem
    obtain ⟨id, hid, heq⟩ := hmem
    refine ⟨mkBar (envOf hits mode) mode (minRootStartMs hits mode) id, ?_, ?_⟩
    · rw [hdata]
      exact List.mem_map_of_mem _ hid
    · rw [← endOf_eq_bar, hm2]
      exact heq.symm

/-- C8: in the annotation re-projection of the layout useMemo, the
annotation at index i (whose y always matches its bar, since both carry the
parsed span id of the same node) is re-anchored to exactly visibleStart
when its nominal anchor lies left of visibleStart and its bar end
base + x extends strictly past visibleStart, and is kept unchanged when its
bar ends at or before visibleStart. -/
theorem c8_annotation_reprojection (hits : List ParsedHit) (mode : Mode)
    (g : GanttData) (vs : ℚ) (i : ℕ)
    (h : buildChartModel hits mode = .ok g)
    (h1 : i < g.annotations.length) (h2 : i < g.data.length)
    (h3 : i < (adjustAnnotations g.data g.annotations vs).length) :
    ((g.annotations[i].x < vs ∧
        vs < g.data[i].base + g.data[i].x) →
      (adjustAnnotations g.data g.annotations vs)[i].x = vs) ∧
    (g.data[i].base + g.data[i].x ≤ vs →
      (adjustAnnotations g.data g.annotations vs)[i].x =
        g.annotations[i].x) := by
  obtain ⟨hdata, hanns, _⟩ := buildChartModel_ok_eq hits mode g h
  have hadj : adjustAnnotations g.data g.annotations vs =
      (visitForest (envOf hits mode) (hits.length + 1)
        (hitsToHierarchicalSpans hits mode).rootSpans).map (fun id =>
        if (mkAnn (envOf hits mode) mode (minRootStartMs hits mode) id).x <
              vs ∧
            (mkAnn (envOf hits mode) mode (minRootStartMs hits mode) id).y =
              (mkBar (envOf hits mode) mode (minRootStartMs hits mode) id).y ∧
            vs < (mkBar (envOf hits mode) mode
              (minRootStartMs hits mode) id).base +
              (mkBar (envOf hits mode) mode (minRootStartMs hits mode) id).x
        then { (mkAnn (envOf hits mode) mode (minRootStartMs hits mode) id)
                with x := vs }
        else mkAnn (envOf hits mode) mode (minRootStartMs hits mode) id) := by
    rw [hdata, hanns]
    unfold adjustAnnotations
    rw [List.zip_map', List.map_map]
    rfl
  constructor
  · rintro ⟨hx, hend⟩
    simp only [hanns, List.getElem_map] at hx
    simp only [hdata, List.getElem_map] at hend
    simp only [hadj, List.getElem_map]
    split
    · rfl
    · rename_i hcond
      exact absurd ⟨hx, rfl, hend⟩ hcond
  · intro hle
    simp only [hdata, List.getElem_map] at hle
    simp only [hadj]
    simp only [hanns]
    simp only [List.getElem_map]
    split
    · rename_i hcond
      exact absurd hle (not_le_of_lt hcond.2.2)
    · rfl

end TraceVis

namespace TraceVis

/-- Jaeger hit whose only reference is a CHILD_OF pointing outside the hit
set (for C10). -/
def w10hit : ParsedHit :=
  ⟨{ spanID := some "X", startTime := 10, duration := 1000,
     process := some ⟨some "sx"⟩,
     references := some [⟨.CHILD_OF, "missing"⟩] }⟩

/-- Hit set for C10: the orphan X plus an ordinary root Y. -/
def w10hits : List ParsedHit :=
  [w10hit,
   ⟨{ spanID := some "Y", startTime := 5, duration := 2000,
      process := some ⟨some "sy"⟩ }⟩]

/-- C10: in jaeger mode, a hit with a non-empty reference list, no
FOLLOWS_FROM reference, and no resolvable CHILD_OF target is neither pushed
as any node's child nor registered as a root, and no bar of a successful
chart model carries its span id: the span is dropped entirely. -/
theorem c10_unresolved_children_dropped (hits : List ParsedHit)
    (hit : ParsedHit) (hm : hit ∈ hits)
    (hne : hit._source.references.getD [] ≠ [])
    (hnf : ∀ ref ∈ hit._source.references.getD [],
      ref.refType ≠ RefType.FOLLOWS_FROM)
    (hunres : ∀ ref ∈ hit._source.references.getD [],
      ref.spanID ∉ spanMapKeys hits Mode.jaeger)
    (hu : UniqueKeys hits Mode.jaeger) (ht : KeysTruthy hits Mode.jaeger) :
    hitKey Mode.jaeger hit ∉
      (hitsToHierarchicalSpans hits Mode.jaeger).rootSpans ∧
    (∀ pr ∈ (hitsToHierarchicalSpans hits Mode.jaeger).pushes,
      pr.2 ≠ hitKey Mode.jaeger hit) ∧
    ∀ g, buildChartModel hits Mode.jaeger = .ok g →
      ∀ b ∈ g.data, b.spanId ≠ spanKeyField Mode.jaeger hit._source := by
  have hkroot : hitKey Mode.jaeger hit ∉
      (hitsToHierarchicalSpans hits Mode.jaeger).rootSpans := by
    intro hmem
    obtain ⟨hit2, hm2, hkeq, hroot⟩ :=
      (mem_rootSpans_iff hits Mode.jaeger _).mp hmem
    have hh : hit2 = hit := List.inj_on_of_nodup_map hu hm2 hm hkeq.symm
    subst hh
    rcases (isRootHit_jaeger_iff _ hit2).mp hroot with he | ⟨ref, hrm, hff⟩
    · exact hne he
    · exact hnf ref hrm hff
  have hpush : ∀ pr ∈ (hitsToHierarchicalSpans hits Mode.jaeger).pushes,
      pr.2 ≠ hitKey Mode.jaeger hit := by
    intro pr hpr hp2
    rw [hitsToHierarchicalSpans_pushes, List.mem_flatMap] at hpr
    obtain ⟨hit2, hm2, hpr2⟩ := hpr
    have h2 := hitPushes_mem (spanMapKeys hits Mode.jaeger) Mode.jaeger
      hit2 pr hpr2
    have hkeq : hitKey Mode.jaeger hit2 = hitKey Mode.jaeger hit := by
      rw [← h2.2, hp2]
    have hh : hit2 = hit := List.inj_on_of_nodup_map hu hm2 hm hkeq
    subst hh
    simp only [hitPushes, List.mem_flatMap] at hpr2
    obtain ⟨ref, hrm, hrp⟩ := hpr2
    unfold refPush at hrp
    split at hrp
    · rename_i hc
      exact hunres ref hrm hc.2
    · exact absurd hrp (List.not_mem_nil pr)
  refine ⟨hkroot, hpush, ?_⟩
  intro g hg b hb
  obtain ⟨hdata, _, _⟩ := buildChartModel_ok_eq hits Mode.jaeger g hg
  rw [hdata, List.mem_map] at hb
  obtain ⟨id, hid, rfl⟩ := hb
  have hidk := visitForest_subset_keys hits Mode.jaeger (hits.length + 1)
    id hid
  have hbar : (mkBar (envOf hits Mode.jaeger) Mode.jaeger
      (minRootStartMs hits Mode.jaeger) id).spanId = some id := by
    rw [mkBar_spanId]
    exact nodeSource_spanKeyField hits Mode.jaeger id hidk ht
  have hhitk : spanKeyField Mode.jaeger hit._source =
      some (hitKey Mode.jaeger hit) :=
    spanKeyField_truthy_eq Mode.jaeger hit._source (ht hit hm)
  rw [hbar, hhitk]
  intro heq
  have hideq : id = hitKey Mode.jaeger hit := Option.some.inj heq
  rcases visitForest_subset _ (hits.length + 1) _ id hid with hrt | ⟨p, hp⟩
  · exact hkroot (hideq ▸ hrt)
  · exact hpush (p, id) ((mem_childrenOf _ p id).mp hp) hideq

unseal Rat.mul Rat.inv Rat.add Rat.sub Nat.gcd List.merge List.mergeSort in
theorem c10_witness :
    hitKey Mode.jaeger w10hit ∉
      (hitsToHierarchicalSpans w10hits Mode.jaeger).rootSpans ∧
    (∀ pr ∈ (hitsToHierarchicalSpans w10hits Mode.jaeger).pushes,
      pr.2 ≠ hitKey Mode.jaeger w10hit) ∧
    ∀ g, buildChartModel w10hits Mode.jaeger = .ok g →
      ∀ b ∈ g.data, b.spanId ≠ spanKeyField Mode.jaeger w10hit._source :=
  c10_unresolved_children_dropped w10hits w10hit (by decide) (by decide)
    (by decide) (by decide) (by decide) (by decide)

end TraceVis

namespace TraceVis

/-- C1 counterexample input: a single span that names itself as parent; the
parent id resolves within the set, yet the span is pushed as its own child
and never becomes a root, so the chart loses it. -/
def c1chits : List ParsedHit :=
  [⟨{ spanId := some "X", durationInNanos := 5, parentSpanId := some "X" }⟩]

unseal Rat.mul Rat.inv Rat.add Rat.sub Nat.gcd List.merge List.mergeSort in
/-- C1 counterexample: the hit set has every parent id resolvable, yet the
emitted bar list is empty and its span ids are not a permutation of the
input span ids: resolvability alone does not give round-trip
completeness. -/
theorem c1_counterexample :
    RefsResolvable c1chits Mode.data_prepper ∧
    (buildChartModel c1chits Mode.data_prepper).map
      (fun g => g.data.map SpanBar.spanId) = .ok [] ∧
    ¬(([] : List (Option String)).Perm
      (c1chits.map (fun hit => spanKeyField Mode.data_prepper hit._source))) := by
  refine ⟨by decide, by decide, ?_⟩
  intro hperm
  have hlen := hperm.length_eq
  exact absurd hlen (by decide)

/-- C1 amended: under unique truthy keys, single resolvable attachment,
no mixed reference kinds, terminating parent chains and present process
objects, the pipeline succeeds and the multiset of span ids on the emitted
bars is a permutation of the span ids of the input hits: no loss and no
duplication. -/
theorem c1_round_trip (hits : List ParsedHit) (mode : Mode)
    (hu : UniqueKeys hits mode) (ht : KeysTruthy hits mode)
    (hco : AtMostOneChildRef hits mode) (hnm : NoMixedRefs hits mode)
    (hnr : RefsResolvable hits mode) (hct : ChainsTerminate hits mode)
    (hp : ProcessPresent hits mode) :
    ∃ g, buildChartModel hits mode = .ok g ∧
      (g.data.map SpanBar.spanId).Perm
        (hits.map (fun hit => spanKeyField mode hit._source)) := by
  obtain ⟨g, hg⟩ := buildChartModel_isOk hits mode hp
  refine ⟨g, hg, ?_⟩
  obtain ⟨hdata, _, _⟩ := buildChartModel_ok_eq hits mode g hg
  have hspan : g.data.map SpanBar.spanId =
      (visitForest (envOf hits mode) (hits.length + 1)
        (hitsToHierarchicalSpans hits mode).rootSpans).map
        (fun id => some id) := by
    rw [hdata, List.map_map]
    exact visited_map_spanId hits mode (minRootStartMs hits mode) ht _
      (fun id hid =>
        visitForest_subset_keys hits mode (hits.length + 1) id hid)
  rw [hspan, keys_map_some hits mode ht]
  exact (visitForest_perm_spanMapKeys hits mode hu ht hco hnm hnr hct).map
    (fun k => some k)

/-- C1 witness input: a data-prepper root P with one child Q. -/
def c1whits : List ParsedHit :=
  [⟨{ spanId := some "P", durationInNanos := 3000000 }⟩,
   ⟨{ spanId := some "Q", durationInNanos := 1000000,
      startTime := 1000000, parentSpanId := some "P" }⟩]

unseal Rat.mul Rat.inv Rat.add Rat.sub Nat.gcd List.merge List.mergeSort in
theorem c1_witness :
    ∃ g, buildChartModel c1whits Mode.data_prepper = .ok g ∧
      (g.data.map SpanBar.spanId).Perm
        (c1whits.map (fun hit =>
          spanKeyField Mode.data_prepper hit._source)) :=
  c1_round_trip c1whits Mode.data_prepper (by decide) (by decide) (by decide)
    (by decide) (by decide) (by decide) (by decide)

end TraceVis

namespace TraceVis

/-- C6 counterexample input: data-prepper root R with two children K1 and
K2 carrying the same start time. -/
def c6hits : List ParsedHit :=
  [⟨{ spanId := some "R", durationInNanos := 5000000 }⟩,
   ⟨{ spanId := some "K1", durationInNanos := 1000000,
      startTime := 1000000, parentSpanId := some "R" }⟩,
   ⟨{ spanId := some "K2", durationInNanos := 1000000,
      startTime := 1000000, parentSpanId := some "R" }⟩]

unseal Rat.mul Rat.inv Rat.add Rat.sub Nat.gcd List.merge List.mergeSort in
/-- C6 counterexample: with the sibling tie K1/K2 the emitted order is
R, K1, K2, so K2.startTimeInNanos ≤ K1.startTimeInNanos holds while K2 does
not precede K1: the claimed equivalence between start-time order and index
order fails on equal start times (only the strict direction holds). -/
theorem c6_counterexample :
    (buildChartModel c6hits Mode.data_prepper).map
      (fun g => g.data.map SpanBar.spanId) =
      .ok [some "R", some "K1", some "K2"] ∧
    nodeStartNanos c6hits Mode.data_prepper "K2" ≤
      nodeStartNanos c6hits Mode.data_prepper "K1" ∧
    ¬(([some "R", some "K1", some "K2"] : List (Option String)).indexOf
        (some "K2") <
      ([some "R", some "K1", some "K2"] : List (Option String)).indexOf
        (some "K1")) := by
  refine ⟨by decide, by decide, by decide⟩

/-- C6 amended: under the forest hypotheses the pipeline succeeds and the
bar sequence is a stable pre-order: every strict ancestor appears strictly
before each of its descendants, siblings with strictly smaller start time
appear strictly earlier, and roots with strictly smaller start time appear
strictly earlier (ties keep insertion order, so the spec's equivalence
holds only in this strict form). -/
theorem c6_stable_preorder (hits : List ParsedHit) (mode : Mode)
    (hu : UniqueKeys hits mode) (ht : KeysTruthy hits mode)
    (hco : AtMostOneChildRef hits mode) (hnm : NoMixedRefs hits mode)
    (hnr : RefsResolvable hits mode) (hct : ChainsTerminate hits mode)
    (hp : ProcessPresent hits mode) :
    ∃ g, buildChartModel hits mode = .ok g ∧
      (∀ (p d : String) (k : ℕ),
        iterParent (parentOf (hitsToHierarchicalSpans hits mode)) (k + 1) d =
          some p → d ∈ spanMapKeys hits mode →
        SplitPair (g.data.map SpanBar.spanId) (some p) (some d)) ∧
      (∀ q c c', c ∈ childrenOf (hitsToHierarchicalSpans hits mode) q →
        c' ∈ childrenOf (hitsToHierarchicalSpans hits mode) q →
        nodeStartNanos hits mode c < nodeStartNanos hits mode c' →
        SplitPair (g.data.map SpanBar.spanId) (some c) (some c')) ∧
      (∀ r r', r ∈ (hitsToHierarchicalSpans hits mode).rootSpans →
        r' ∈ (hitsToHierarchicalSpans hits mode).rootSpans →
        nodeStartNanos hits mode r < nodeStartNanos hits mode r' →
        SplitPair (g.data.map SpanBar.spanId) (some r) (some r')) := by
  have FA := forestAssumptions_build hits mode hu ht hco hnm hnr hct
  obtain ⟨g, hg⟩ := buildChartModel_isOk hits mode hp
  obtain ⟨hdata, _, _⟩ := buildChartModel_ok_eq hits mode g hg
  have hspan : g.data.map SpanBar.spanId =
      (visitForest (envOf hits mode) (hits.length + 1)
        (hitsToHierarchicalSpans hits mode).rootSpans).map
        (fun id => some id) := by
    rw [hdata, List.map_map]
    exact visited_map_spanId hits mode (minRootStartMs hits mode) ht _
      (fun id hid =>
        visitForest_subset_keys hits mode (hits.length + 1) id hid)
  refine ⟨g, hg, ?_, ?_, ?_⟩
  · intro p d k hiter hd
    rw [hspan]
    exact (FA.forest_subtree_split (envOf hits mode) (fun _ => rfl)
      hiter hd).map (fun id => some id)
  · intro q c c' hc hc' hlt
    rw [hspan]
    exact (FA.forest_sibling_split (envOf hits mode) (fun _ => rfl)
      hc hc' hlt).map (fun id => some id)
  · intro r r' hrr hrr' hlt
    rw [hspan]
    exact (FA.forest_roots_split (envOf hits mode) (fun _ => rfl)
      hrr hrr' hlt).map (fun id => some id)

unseal Rat.mul Rat.inv Rat.add Rat.sub Nat.gcd List.merge List.mergeSort in
theorem c6_witness :
    ∃ g, buildChartModel c6hits Mode.data_prepper = .ok g ∧
      (∀ (p d : String) (k : ℕ),
        iterParent (parentOf (hitsToHierarchicalSpans c6hits
          Mode.data_prepper)) (k + 1) d = some p →
        d ∈ spanMapKeys c6hits Mode.data_prepper →
        SplitPair (g.data.map SpanBar.spanId) (some p) (some d)) ∧
      (∀ q c c',
        c ∈ childrenOf (hitsToHierarchicalSpans c6hits Mode.data_prepper) q →
        c' ∈ childrenOf (hitsToHierarchicalSpans c6hits Mode.data_prepper) q →
        nodeStartNanos c6hits Mode.data_prepper c <
          nodeStartNanos c6hits Mode.data_prepper c' →
        SplitPair (g.data.map SpanBar.spanId) (some c) (some c')) ∧
      (∀ r r',
        r ∈ (hitsToHierarchicalSpans c6hits Mode.data_prepper).rootSpans →
        r' ∈ (hitsToHierarchicalSpans c6hits Mode.data_prepper).rootSpans →
        nodeStartNanos c6hits Mode.data_prepper r <
          nodeStartNanos c6hits Mode.data_prepper r' →
        SplitPair (g.data.map SpanBar.spanId) (some r) (some r')) :=
  c6_stable_preorder c6hits Mode.data_prepper (by decide) (by decide)
    (by decide) (by decide) (by decide) (by decide) (by decide)

end TraceVis

namespace TraceVis

/-- Chart model of c4hits (one jaeger span of 1234 microseconds). -/
def c4gantt : GanttData :=
  ⟨[⟨123 / 100, some "D", 0, some "D"⟩],
   [⟨0, some "D", "s: undefined - 1.23ms"⟩], 123 / 100⟩

unseal Rat.mul Rat.inv Rat.add Rat.sub Nat.gcd List.merge List.mergeSort in
theorem c4_witness :
    ∃ hit ∈ c4hits,
      (123 : ℚ) / 100 = (if Mode.jaeger = Mode.jaeger then
          jsRound2 (microToMilliSec hit._source.duration)
        else jsRound2 (nanoToMilliSec hit._source.durationInNanos)) ∧
      (0 : ℚ) = nanoToMilliSec (getStartTimeInNanos hit Mode.jaeger) -
        minRootStartMs c4hits Mode.jaeger :=
  c4_duration_rounded_offset_unrounded c4hits Mode.jaeger c4gantt (by decide)
    ⟨123 / 100, some "D", 0, some "D"⟩ (by decide)

/-- Chart model of c5hits (root R with early child C). -/
def c5gantt : GanttData :=
  ⟨[⟨3, some "R", 0, some "R"⟩, ⟨1, some "C", -1, some "C"⟩],
   [⟨0, some "R", "s: undefined - 3.00ms"⟩,
    ⟨-1, some "C", "s: undefined - 1.00ms"⟩], 3⟩

unseal Rat.mul Rat.inv Rat.add Rat.sub Nat.gcd List.merge List.mergeSort in
theorem c5_witness :
    ∃ hit ∈ c5hits,
      (some "C" : Option String) = spanKeyField Mode.jaeger hit._source ∧
      (-1 : ℚ) = nanoToMilliSec (getStartTimeInNanos hit Mode.jaeger) -
        minRootStartMs c5hits Mode.jaeger :=
  c5_offset_root_min c5hits Mode.jaeger c5gantt (by decide)
    ⟨1, some "C", -1, some "C"⟩ (by decide)

/-- Witness input for C7 and C8: one data-prepper span of 5 ms. -/
def w1hits : List ParsedHit :=
  [⟨{ spanId := some "A", durationInNanos := 5000000,
      serviceName := some "svc", name := some "op" }⟩]

/-- Chart model of w1hits. -/
def w1gantt : GanttData :=
  ⟨[⟨5, some "A", 0, some "A"⟩],
   [⟨0, some "A", "svc: op - 5.00ms"⟩], 5⟩

unseal Rat.mul Rat.inv Rat.add Rat.sub Nat.gcd List.merge List.mergeSort in
theorem c7_witness :
    (∃ b ∈ w1gantt.data, w1gantt.maxX = b.base + b.x) ∧
    (∀ b ∈ w1gantt.data, b.base + b.x ≤ w1gantt.maxX) ∧
    fullRange w1gantt.maxX = (0, w1gantt.maxX * (11 / 10)) :=
  c7_maxX_and_reset_range w1hits Mode.data_prepper w1gantt (by decide)
    (by decide)

unseal Rat.mul Rat.inv Rat.add Rat.sub Nat.gcd List.merge List.mergeSort in
theorem c8_witness :
    (((w1gantt.annotations.get ⟨0, by decide⟩).x < 2 ∧
        2 < (w1gantt.data.get ⟨0, by decide⟩).base +
          (w1gantt.data.get ⟨0, by decide⟩).x) →
      ((adjustAnnotations w1gantt.data w1gantt.annotations 2).get
        ⟨0, by decide⟩).x = 2) ∧
    ((w1gantt.data.get ⟨0, by decide⟩).base +
        (w1gantt.data.get ⟨0, by decide⟩).x ≤ 2 →
      ((adjustAnnotations w1gantt.data w1gantt.annotations 2).get
        ⟨0, by decide⟩).x = (w1gantt.annotations.get ⟨0, by decide⟩).x) :=
  c8_annotation_reprojection w1hits Mode.data_prepper w1gantt 2 0 (by decide)
    (by decide) (by decide) (by decide)

end TraceVis
